import Mathlib

/-!
Verification of the Baum-Welch HMM notebook.

The notebook's tensors are modelled as lists of rationals: a vector is a
`List ℚ`; a parameter matrix (`A`, `B`) is a list of rows; the time-indexed
tables `α`, `β`, `γ` are lists of COLUMNS (one column per time step, each of
length `N`), matching the column-by-column way the notebook fills them.
Python / torch operations that can raise (out-of-range tensor writes,
`torch.stack` of an empty list, the shape-mismatched assignment
`beta[:, -1] = [1.0, 1.0]` when `N ≠ 2`) are modelled with `Option`:
`none` is a raised runtime error.
-/

namespace HMM

/-- Element-wise product of two vectors, `torch.mul` / `*` on 1-d tensors. -/
def hadamard (u v : List ℚ) : List ℚ := List.zipWith (· * ·) u v

/-- Dot product: sum of the element-wise product. -/
def dot (u v : List ℚ) : ℚ := (hadamard u v).sum

/-- Column `k` of a row-major matrix, `M[:, k]`. -/
def col (M : List (List ℚ)) (k : ℕ) : List ℚ := M.map (fun r => r.getD k 0)

/-- Number of columns of a row-major matrix (length of its first row). -/
def ncols (M : List (List ℚ)) : ℕ := (M.headD []).length

/-- Vector-matrix product `torch.matmul(v, M)`: entry `j` is `Σ_i v_i * M[i,j]`. -/
def vecMat (v : List ℚ) (M : List (List ℚ)) : List ℚ :=
  (List.range (ncols M)).map (fun j => dot v (col M j))

/-- Matrix-vector product `torch.matmul(M, v)`: entry `i` is `Σ_j M[i,j] * v_j`. -/
def matVec (M : List (List ℚ)) (v : List ℚ) : List ℚ := M.map (fun r => dot r v)

/-- Broadcast product `M * v` of a matrix with a vector along rows:
entry `(i,j)` is `M[i,j] * v_j`. -/
def rowBroadcastMul (M : List (List ℚ)) (v : List ℚ) : List (List ℚ) :=
  M.map (fun r => hadamard r v)

/-- The tensor expression `transpose(v * transpose(M))`: entry `(i,j)` is
`v_i * M[i,j]`, i.e. row `i` of `M` scaled by `v_i`. -/
def scaleRows (v : List ℚ) (M : List (List ℚ)) : List (List ℚ) :=
  List.zipWith (fun c r => r.map (fun x => c * x)) v M

/-- Element-wise matrix sum (`torch.stack` followed by `.sum(dim 0)` adds
the stacked matrices entry by entry). -/
def matAdd (X Y : List (List ℚ)) : List (List ℚ) :=
  List.zipWith (fun r s => List.zipWith (· + ·) r s) X Y

/-- Division of every entry of a matrix by a scalar. -/
def matDivScalar (M : List (List ℚ)) (d : ℚ) : List (List ℚ) :=
  M.map (fun r => r.map (fun x => x / d))

/-- Sum of all entries of a matrix, `t.sum(dim 0).sum(dim 0)`. -/
def totalSum (M : List (List ℚ)) : ℚ := (M.map List.sum).sum

/-- Row sums of a table given as a list of `cols` columns of length `n`:
`t.sum(dim 1)`, a vector of length `n` whose entry `i` sums row `i`. -/
def rowSums (n : ℕ) (cols : List (List ℚ)) : List ℚ :=
  (List.range n).map (fun i => (cols.map (fun c => c.getD i 0)).sum)

/-- Transpose of a row-major matrix, `t.transpose(1, 0)`. -/
def transposeL (M : List (List ℚ)) : List (List ℚ) :=
  (List.range (ncols M)).map (fun i => M.map (fun r => r.getD i 0))

/-- Entry `(i, j)` of a row-major matrix (row `i`, column `j`). -/
def eltM (M : List (List ℚ)) (i j : ℕ) : ℚ := (M.getD i []).getD j 0

/-- Entry `(i, t)` of a table stored as a list of columns (state `i`, time `t`). -/
def eltC (cols : List (List ℚ)) (i t : ℕ) : ℚ := (cols.getD t []).getD i 0

/-- Three-list `zipWith`, truncating at the shortest list. -/
def zipWith3 (f : α → β → γ → δ) : List α → List β → List γ → List δ
  | a :: as, b :: bs, c :: cs => f a b c :: zipWith3 f as bs cs
  | _, _, _ => []

/-!  The notebook's functions.  -/

/-- Cell `expected_output_occurrence(index, step_gammas, summed_gammas)`:
selects the columns of `step_gammas` listed in `index`
(`index_select(1, index)`), sums them into a per-state vector
(`sum(dim 1)`, whose length torch takes from the tensor's state dimension,
here recovered as the length of `summed_gammas`), and divides element-wise
by `summed_gammas`. -/
def expected_output_occurrence (index : List ℕ) (step_gammas : List (List ℚ))
    (summed_gammas : List ℚ) : List ℚ :=
  let filtered_gamma := index.map (fun t => step_gammas.getD t [])
  let sum_filtered_gamma := rowSums summed_gammas.length filtered_gamma
  List.zipWith (fun x y => x / y) sum_filtered_gamma summed_gammas

/-- Cell `hidden_state_init(sequence)`.  The comprehension
`{state: state/len(sequence) for state in Counter(sequence).values()}`
iterates over the COUNTS (`.values()`), so the dict keys are the distinct
occurrence counts; `sorted(probabilities.items())` then sorts those counts
ascending and the returned array holds `count / len(sequence)` for each
distinct count value. -/
def hidden_state_init (sequence : List ℕ) : List ℚ :=
  let counts := sequence.dedup.map (fun s => sequence.count s)
  let countKeys := counts.dedup
  let sortedKeys := List.insertionSort (fun a b => a ≤ b) countKeys
  sortedKeys.map (fun c => (c : ℚ) / (sequence.length : ℚ))

/-- Consecutive pairs of a list: the tuples accumulated by the
`temp` / `sequences` loop of `trans_mat_init`. -/
def consecPairs : List ℕ → List (ℕ × ℕ)
  | a :: b :: rest => (a, b) :: consecPairs (b :: rest)
  | _ => []

/-- Cell `trans_mat_init(sequence)`: a square zero matrix of side
`len(set(sequence))` is filled at `[a][b]` with
`count(a→b) / count(a)` for every consecutive pair `(a,b)`;
a pair component outside the matrix raises an `IndexError` (`none`). -/
def trans_mat_init (sequence : List ℕ) : Option (List (List ℚ)) :=
  let K := sequence.dedup.length
  let pairs := consecPairs sequence
  if pairs.all (fun p => p.1 < K && p.2 < K) then
    some ((List.range K).map (fun a => (List.range K).map (fun b =>
      if (a, b) ∈ pairs then ((pairs.count (a, b) : ℚ) / (sequence.count a : ℚ)) else 0)))
  else none

/-- Cell `emiss_state_init(hid_seq, obs_seq)`: a zero matrix of shape
`len(set(hid_seq)) × len(set(obs_seq))` is filled at `[s][o]` with
`count((s,o) among zip(hid_seq, obs_seq)) / count(s in hid_seq)`;
`zip` silently truncates to the shorter sequence, and an index outside
the matrix raises an `IndexError` (`none`). -/
def emiss_state_init (hid_seq obs_seq : List ℕ) : Option (List (List ℚ)) :=
  let pairs := List.zip hid_seq obs_seq
  let R := hid_seq.dedup.length
  let C := obs_seq.dedup.length
  if pairs.all (fun p => p.1 < R && p.2 < C) then
    some ((List.range R).map (fun s => (List.range C).map (fun o =>
      if (s, o) ∈ pairs then ((pairs.count (s, o) : ℚ) / (hid_seq.count s : ℚ)) else 0)))
  else none

/-- The Parameter Initializer as a whole: `hidden_state_init`,
`trans_mat_init` and `emiss_state_init` run on a labeled example. -/
def init_parameters (hid_seq obs_seq : List ℕ) :
    Option (List ℚ × List (List ℚ) × List (List ℚ)) :=
  match trans_mat_init hid_seq, emiss_state_init hid_seq obs_seq with
  | some A, some B => some (hidden_state_init hid_seq, A, B)
  | _, _ => none

/-- One induction step of the forward loop body (with `log=False`):
`torch.mul(torch.matmul(prev, A), B[:, o])`. -/
def forwardStep (A B : List (List ℚ)) (prev : List ℚ) (o : ℕ) : List ℚ :=
  hadamard (vecMat prev A) (col B o)

/-- The forward induction loop `for i, obs in enumerate(obs_sequence[1:])`,
producing the columns after the initial one; each column is computed from
the previous one. -/
def forwardFrom (A B : List (List ℚ)) (prev : List ℚ) : List ℕ → List (List ℚ)
  | [] => []
  | o :: rest =>
    let c := forwardStep A B prev o
    c :: forwardFrom A B c rest

/-- Cell `forward(emission_matrix, log)` with `log=False` (normalization
off): `alpha[:, 0] = pi * B[:, obs[0]]`, then the induction loop.
Result: the list of the `T` columns of `α` (empty for an empty sequence,
on which the notebook would raise at `obs_sequence[0]`). -/
def forward (pi : List ℚ) (A B : List (List ℚ)) (obs : List ℕ) : List (List ℚ) :=
  match obs with
  | [] => []
  | o :: rest =>
    let c := hadamard pi (col B o)
    c :: forwardFrom A B c rest

/-- The backward induction, processing `obs[1:]`; the argument list is the
suffix `obs[t+1:]` of `obs[1:]` and the result is the list of columns
`β[:, t], …, β[:, T-1]`; the base case is the hard-coded assignment
`beta[:, -1] = torch.from_numpy(np.array([1.0, 1.0]))`.  Each earlier
column is `torch.matmul(emission_matrix[:, obs] * A, beta[:, t+1])`. -/
def backwardRec (A B : List (List ℚ)) : List ℕ → List (List ℚ)
  | [] => [[(1 : ℚ), 1]]
  | o :: rest =>
    let cols := backwardRec A B rest
    matVec (rowBroadcastMul A (col B o)) (cols.headD []) :: cols

/-- Cell `backward(observation, log)` with `log=False`.  The initialization
writes the literal two-element tensor `[1.0, 1.0]` into the last column of
the pre-allocated `A.shape[0] × T` table `beta`, which raises a shape error
unless the state count is 2 (and needs at least one column), hence the
guard.  Result: the list of the `T` columns of `β`. -/
def backward (A B : List (List ℚ)) (obs : List ℕ) : Option (List (List ℚ)) :=
  if A.length = 2 ∧ obs ≠ [] then some (backwardRec A B (obs.drop 1)) else none

/-- Cell `calculate_gammas(alpha, beta)`: the element-wise product
`numerator = alpha * beta`, its per-column sums (`sum(dim 0)`), and the
broadcast division — column by column. -/
def calculate_gammas (alphaCols betaCols : List (List ℚ)) : List (List ℚ) :=
  List.zipWith (fun a b =>
    let numer := hadamard a b
    numer.map (fun x => x / numer.sum)) alphaCols betaCols

/-- The per-step matrix `zeta_t` of `calculate_zetas`:
`numerator[i][j] = fwd[i] * A[i][j] * B[j][o] * betacol[j]` (built in the
source as `transpose(transpose(fwd * transpose(A))) * B[:, o] * beta[:, t+1]`)
divided by the total sum over both dimensions. -/
def zetaStep (A B : List (List ℚ)) (fwd : List ℚ) (o : ℕ) (betacol : List ℚ) :
    List (List ℚ) :=
  let numer := (scaleRows fwd A).map (fun r => hadamard (hadamard r (col B o)) betacol)
  matDivScalar numer (totalSum numer)

/-- Cell `calculate_zetas(alpha, obs_seq)` (globals `A`, `emission_matrix`,
`beta` made explicit): for each column `t` of the `alpha` argument it uses
`obs_seq[t+1]` and `beta[:, t+1]`, and the per-step matrices are stacked and
summed.  `torch.stack` of an empty list raises (`none`): this happens
whenever the `alpha` argument has no columns. -/
def calculate_zetas (A B : List (List ℚ)) (alphaCols betaCols : List (List ℚ))
    (obs : List ℕ) : Option (List (List ℚ)) :=
  let zetas := zipWith3 (fun fwd o betacol => zetaStep A B fwd o betacol)
    alphaCols (obs.drop 1) (betaCols.drop 1)
  match zetas with
  | [] => none
  | z :: zs => some (zs.foldl matAdd z)

/-- Cell `re_estimate_parameters(emission_matrix, alpha, beta)` (globals
`A`, `obs_sequence` made explicit).  `new_pi = step_gammas[:, 0]`;
`new_A = summed_zetas / summed_gammas.view(-1, 1)` with the gamma sums
excluding the last column; `new_B` stacks, for each distinct observed
symbol in `set(obs_sequence)` (ascending), the vector
`expected_output_occurrence(np.where(obs == k), step_gammas, summed_gammas)`,
then transposes.  The state count `n` is the tensors' state dimension,
recovered from the first column of `alpha`. -/
def re_estimate_parameters (A B : List (List ℚ)) (alphaCols betaCols : List (List ℚ))
    (obs : List ℕ) : Option (List ℚ × List (List ℚ) × List (List ℚ)) :=
  let step_gammas := calculate_gammas alphaCols betaCols
  let n := (alphaCols.headD []).length
  let new_pi := step_gammas.getD 0 []
  match calculate_zetas A B alphaCols.dropLast betaCols obs with
  | none => none
  | some summed_zetas =>
    let summed_gammas := rowSums n step_gammas.dropLast
    let new_transition_matrix :=
      List.zipWith (fun r s => r.map (fun x => x / s)) summed_zetas summed_gammas
    let summed_gammas2 := rowSums n step_gammas
    let syms := List.insertionSort (fun a b => a ≤ b) obs.dedup
    let state_indices :=
      syms.map (fun k => (List.range obs.length).filter (fun t => obs.getD t 0 = k))
    let new_emission_matrix :=
      state_indices.map (fun idx => expected_output_occurrence idx step_gammas summed_gammas2)
    some (new_pi, new_transition_matrix, transposeL new_emission_matrix)

/-- Rounding a rational to 4 decimal places (round half up), used to state
the notebook's printed values. -/
def roundTo4 (x : ℚ) : ℚ := ((⌊x * 10000 + 1/2⌋ : ℤ) : ℚ) / 10000

end HMM

namespace Demo

/-- The worked example's observation sequence `np.array([0, 1, 2, 2])`. -/
def obs_sequence : List ℕ := [0, 1, 2, 2]

/-- The worked example's initial state distribution `[0.8, 0.2]`. -/
def piDemo : List ℚ := [8/10, 2/10]

/-- The worked example's transition matrix `[[0.6, 0.4], [0.3, 0.7]]`. -/
def A : List (List ℚ) := [[6/10, 4/10], [3/10, 7/10]]

/-- The worked example's emission matrix
`[[0.3, 0.4, 0.3], [0.4, 0.3, 0.3]]`. -/
def emission_matrix : List (List ℚ) := [[3/10, 4/10, 3/10], [4/10, 3/10, 3/10]]

end Demo

namespace HMM

lemma headD_eq_getD (l : List α) (d : α) : l.headD d = l.getD 0 d := by
  cases l <;> rfl

lemma getD_map_of_lt (f : α → β) (l : List α) (i : ℕ) (h : i < l.length) (d : α) (d' : β) :
    (l.map f).getD i d' = f (l.getD i d) := by
  rw [List.getD_eq_getElem _ _ (by simpa using h), List.getD_eq_getElem _ _ h,
    List.getElem_map]

lemma getD_range_map (f : ℕ → α) (n i : ℕ) (h : i < n) (d : α) :
    ((List.range n).map f).getD i d = f i := by
  rw [getD_map_of_lt f _ i (by simpa using h) 0 d]
  congr 1
  rw [List.getD_eq_getElem _ _ (by simpa using h), List.getElem_range]

lemma hadamard_length (u v : List ℚ) : (hadamard u v).length = min u.length v.length :=
  List.length_zipWith ..

lemma hadamard_getD (u v : List ℚ) (i : ℕ) (hu : i < u.length) (hv : i < v.length) :
    (hadamard u v).getD i 0 = u.getD i 0 * v.getD i 0 := by
  rw [List.getD_eq_getElem _ _ (by rw [hadamard_length]; omega),
    List.getD_eq_getElem _ _ hu, List.getD_eq_getElem _ _ hv]
  exact List.getElem_zipWith

lemma sum_eq_sum_range (l : List ℚ) : l.sum = ∑ i ∈ Finset.range l.length, l.getD i 0 := by
  induction l with
  | nil => simp
  | cons a l ih =>
      rw [List.sum_cons, List.length_cons, Finset.sum_range_succ', ih]
      simp only [List.getD_cons_succ, List.getD_cons_zero]
      ring

lemma sum_map_getD (l : List α) (f : α → ℚ) (d : α) :
    (l.map f).sum = ∑ i ∈ Finset.range l.length, f (l.getD i d) := by
  induction l with
  | nil => simp
  | cons a l ih =>
      rw [List.map_cons, List.sum_cons, List.length_cons, Finset.sum_range_succ', ih]
      simp only [List.getD_cons_succ, List.getD_cons_zero]
      ring

lemma dot_eq_sum (u v : List ℚ) (n : ℕ) (hu : u.length = n) (hv : v.length = n) :
    dot u v = ∑ j ∈ Finset.range n, u.getD j 0 * v.getD j 0 := by
  rw [dot, sum_eq_sum_range, hadamard_length, hu, hv, min_self]
  refine Finset.sum_congr rfl fun j hj => ?_
  rw [Finset.mem_range] at hj
  exact hadamard_getD u v j (by omega) (by omega)

lemma sum_map_div (l : List α) (f : α → ℚ) (s : ℚ) :
    (l.map (fun x => f x / s)).sum = (l.map f).sum / s := by
  simp only [div_eq_mul_inv]
  simpa using List.sum_map_mul_right l f s⁻¹

lemma hadamard_map_mul_left (c : ℚ) (r u : List ℚ) :
    hadamard (r.map (fun x => c * x)) u = (hadamard r u).map (fun x => c * x) := by
  induction r generalizing u with
  | nil => simp [hadamard]
  | cons a r ih =>
      cases u with
      | nil => simp [hadamard]
      | cons b u =>
          simp only [hadamard, List.map_cons, List.zipWith_cons_cons] at *
          rw [mul_assoc]
          exact congrArg _ (ih u)

lemma zipWith3_length (f : α → β → γ → δ) (as : List α) (bs : List β) (cs : List γ) :
    (zipWith3 f as bs cs).length = min as.length (min bs.length cs.length) := by
  induction as generalizing bs cs with
  | nil => simp [zipWith3]
  | cons a as ih =>
      cases bs with
      | nil => simp [zipWith3]
      | cons b bs =>
          cases cs with
          | nil => simp [zipWith3]
          | cons c cs => simp [zipWith3, ih]; omega

lemma zipWith3_getD (f : α → β → γ → δ) (as : List α) (bs : List β) (cs : List γ)
    (t : ℕ) (ha : t < as.length) (hb : t < bs.length) (hc : t < cs.length)
    (d : δ) (da : α) (db : β) (dc : γ) :
    (zipWith3 f as bs cs).getD t d = f (as.getD t da) (bs.getD t db) (cs.getD t dc) := by
  induction as generalizing bs cs t with
  | nil => simp at ha
  | cons a as ih =>
      cases bs with
      | nil => simp at hb
      | cons b bs =>
          cases cs with
          | nil => simp at hc
          | cons c cs =>
              cases t with
              | zero => rfl
              | succ t =>
                  simp only [zipWith3, List.getD_cons_succ]
                  exact ih bs cs t (by simpa using ha) (by simpa using hb) (by simpa using hc)

lemma ncols_eq (A : List (List ℚ)) (N : ℕ) (hA : 1 ≤ A.length)
    (hAr : ∀ r ∈ A, r.length = N) : ncols A = N := by
  cases A with
  | nil => simp at hA
  | cons r A => exact hAr r (List.mem_cons_self r A)

lemma col_length (M : List (List ℚ)) (k : ℕ) : (col M k).length = M.length :=
  List.length_map ..

lemma col_getD (M : List (List ℚ)) (k i : ℕ) (hi : i < M.length) :
    (col M k).getD i 0 = eltM M i k := by
  rw [col, getD_map_of_lt _ _ _ hi []]; rfl

lemma vecMat_length (v : List ℚ) (M : List (List ℚ)) : (vecMat v M).length = ncols M := by
  simp [vecMat]

lemma vecMat_getD (v : List ℚ) (M : List (List ℚ)) (j : ℕ) (hj : j < ncols M) :
    (vecMat v M).getD j 0 = dot v (col M j) :=
  getD_range_map _ _ _ hj 0

lemma matVec_length (M : List (List ℚ)) (v : List ℚ) : (matVec M v).length = M.length :=
  List.length_map ..

lemma matVec_getD (M : List (List ℚ)) (v : List ℚ) (i : ℕ) (hi : i < M.length) :
    (matVec M v).getD i 0 = dot (M.getD i []) v := by
  rw [matVec, getD_map_of_lt _ _ _ hi []]

lemma rowBroadcastMul_length (M : List (List ℚ)) (v : List ℚ) :
    (rowBroadcastMul M v).length = M.length := List.length_map ..

lemma rowBroadcastMul_getD (M : List (List ℚ)) (v : List ℚ) (i : ℕ) (hi : i < M.length) :
    (rowBroadcastMul M v).getD i [] = hadamard (M.getD i []) v := by
  rw [rowBroadcastMul, getD_map_of_lt _ _ _ hi []]

lemma getD_mem (l : List α) (i : ℕ) (d : α) (hi : i < l.length) : l.getD i d ∈ l := by
  rw [List.getD_eq_getElem _ _ hi]
  exact List.getElem_mem hi

/-!  Structure of the forward table.  -/

lemma forwardStep_length (A B : List (List ℚ)) (prev : List ℚ) (o : ℕ) :
    (forwardStep A B prev o).length = min (ncols A) B.length := by
  rw [forwardStep, hadamard_length, vecMat_length, col_length]

lemma forwardFrom_length (A B : List (List ℚ)) (prev : List ℚ) (l : List ℕ) :
    (forwardFrom A B prev l).length = l.length := by
  induction l generalizing prev with
  | nil => rfl
  | cons o rest ih => simp [forwardFrom, ih]

lemma forward_length (pi : List ℚ) (A B : List (List ℚ)) (obs : List ℕ) :
    (forward pi A B obs).length = obs.length := by
  cases obs with
  | nil => rfl
  | cons o rest => simp [forward, forwardFrom_length]

lemma forwardFrom_col_length (A B : List (List ℚ)) (prev : List ℚ) (l : List ℕ)
    (t : ℕ) (ht : t < l.length) :
    ((forwardFrom A B prev l).getD t []).length = min (ncols A) B.length := by
  induction l generalizing prev t with
  | nil => simp at ht
  | cons o rest ih =>
      cases t with
      | zero => simpa [forwardFrom] using forwardStep_length A B prev o
      | succ t =>
          simp only [forwardFrom, List.getD_cons_succ]
          exact ih _ t (by simpa using ht)

lemma forward_col_length (N : ℕ) (pi : List ℚ) (A B : List (List ℚ)) (obs : List ℕ)
    (hN : 1 ≤ N) (hpl : pi.length = N) (hAl : A.length = N)
    (hAr : ∀ r ∈ A, r.length = N) (hBl : B.length = N)
    (t : ℕ) (ht : t < obs.length) :
    ((forward pi A B obs).getD t []).length = N := by
  cases obs with
  | nil => simp at ht
  | cons o rest =>
      cases t with
      | zero =>
          show (hadamard pi (col B o)).length = N
          rw [hadamard_length, col_length, hpl, hBl, min_self]
      | succ t =>
          show ((forwardFrom A B (hadamard pi (col B o)) rest).getD t []).length = N
          rw [forwardFrom_col_length A B _ rest t (by simpa using ht),
            ncols_eq A N (by omega) hAr, hBl, min_self]

lemma forwardFrom_getD_succ (A B : List (List ℚ)) (prev : List ℚ) (l : List ℕ)
    (t : ℕ) (ht : t + 1 < l.length) :
    (forwardFrom A B prev l).getD (t + 1) [] =
      forwardStep A B ((forwardFrom A B prev l).getD t []) (l.getD (t + 1) 0) := by
  induction l generalizing prev t with
  | nil => simp at ht
  | cons o rest ih =>
      cases t with
      | zero =>
          cases rest with
          | nil => simp at ht
          | cons o' rest' => rfl
      | succ t =>
          simp only [forwardFrom, List.getD_cons_succ]
          exact ih _ t (by simpa using ht)

lemma forward_getD_succ (pi : List ℚ) (A B : List (List ℚ)) (obs : List ℕ)
    (t : ℕ) (ht : t + 1 < obs.length) :
    (forward pi A B obs).getD (t + 1) [] =
      forwardStep A B ((forward pi A B obs).getD t []) (obs.getD (t + 1) 0) := by
  cases obs with
  | nil => simp at ht
  | cons o rest =>
      cases t with
      | zero =>
          cases rest with
          | nil => simp at ht
          | cons o' rest' => rfl
      | succ t =>
          simp only [forward, List.getD_cons_succ]
          exact forwardFrom_getD_succ A B _ rest t (by simpa using ht)

lemma forwardStep_getD (N : ℕ) (A B : List (List ℚ)) (prev : List ℚ) (o i : ℕ)
    (hN : 1 ≤ N) (hAl : A.length = N) (hAr : ∀ r ∈ A, r.length = N) (hBl : B.length = N)
    (hprev : prev.length = N) (hi : i < N) :
    (forwardStep A B prev o).getD i 0 =
      (∑ j ∈ Finset.range N, prev.getD j 0 * eltM A j i) * eltM B i o := by
  have hnc : ncols A = N := ncols_eq A N (by omega) hAr
  rw [forwardStep, hadamard_getD _ _ i (by rw [vecMat_length, hnc]; omega)
      (by rw [col_length, hBl]; omega),
    vecMat_getD _ _ i (by rw [hnc]; omega), col_getD B o i (by omega),
    dot_eq_sum prev (col A i) N hprev (by rw [col_length, hAl])]
  congr 1
  refine Finset.sum_congr rfl fun j hj => ?_
  rw [Finset.mem_range] at hj
  rw [col_getD A i j (by omega)]

/-!  Structure of the backward table.  -/

lemma backwardRec_length (A B : List (List ℚ)) (l : List ℕ) :
    (backwardRec A B l).length = l.length + 1 := by
  induction l with
  | nil => rfl
  | cons o rest ih => simp [backwardRec, ih]

lemma backwardRec_getD_last (A B : List (List ℚ)) (l : List ℕ) :
    (backwardRec A B l).getD l.length [] = [1, 1] := by
  induction l with
  | nil => rfl
  | cons o rest ih => simpa [backwardRec] using ih

lemma backwardRec_getD (A B : List (List ℚ)) (l : List ℕ) (t : ℕ) (ht : t < l.length) :
    (backwardRec A B l).getD t [] =
      matVec (rowBroadcastMul A (col B (l.getD t 0)))
        ((backwardRec A B l).getD (t + 1) []) := by
  induction l generalizing t with
  | nil => simp at ht
  | cons o rest ih =>
      cases t with
      | zero =>
          simp only [backwardRec, List.getD_cons_zero, List.getD_cons_succ]
          rw [headD_eq_getD]
      | succ t =>
          simp only [backwardRec, List.getD_cons_succ]
          exact ih t (by simpa using ht)

lemma backwardRec_col_length (A B : List (List ℚ)) (l : List ℕ) (hAl : A.length = 2)
    (t : ℕ) (ht : t ≤ l.length) :
    ((backwardRec A B l).getD t []).length = 2 := by
  induction l generalizing t with
  | nil =>
      have h0 : t = 0 := by simpa using ht
      subst h0
      rfl
  | cons o rest ih =>
      cases t with
      | zero =>
          show (matVec (rowBroadcastMul A (col B o)) _).length = 2
          rw [matVec_length, rowBroadcastMul_length, hAl]
      | succ t =>
          simp only [backwardRec, List.getD_cons_succ]
          exact ih t (by simpa using ht)

lemma zipWith_getD (f : α → β → γ) (l1 : List α) (l2 : List β) (i : ℕ)
    (h1 : i < l1.length) (h2 : i < l2.length) (d1 : α) (d2 : β) (d3 : γ) :
    (List.zipWith f l1 l2).getD i d3 = f (l1.getD i d1) (l2.getD i d2) := by
  rw [List.getD_eq_getElem _ _ (by rw [List.length_zipWith]; omega),
    List.getD_eq_getElem _ _ h1, List.getD_eq_getElem _ _ h2, List.getElem_zipWith]

lemma calculate_gammas_length (alphaCols betaCols : List (List ℚ)) :
    (calculate_gammas alphaCols betaCols).length = min alphaCols.length betaCols.length :=
  List.length_zipWith ..

lemma calculate_gammas_getD (alphaCols betaCols : List (List ℚ)) (t : ℕ)
    (ht1 : t < alphaCols.length) (ht2 : t < betaCols.length) :
    (calculate_gammas alphaCols betaCols).getD t [] =
      (hadamard (alphaCols.getD t []) (betaCols.getD t [])).map
        (fun x => x / (hadamard (alphaCols.getD t []) (betaCols.getD t [])).sum) :=
  zipWith_getD _ alphaCols betaCols t ht1 ht2 [] [] []

lemma gamma_col_sum (alphaCols betaCols : List (List ℚ)) (t : ℕ)
    (ht1 : t < alphaCols.length) (ht2 : t < betaCols.length)
    (hden : (hadamard (alphaCols.getD t []) (betaCols.getD t [])).sum ≠ 0) :
    ((calculate_gammas alphaCols betaCols).getD t []).sum = 1 := by
  rw [calculate_gammas_getD alphaCols betaCols t ht1 ht2]
  have h := sum_map_div (hadamard (alphaCols.getD t []) (betaCols.getD t []))
    (fun x => x) (hadamard (alphaCols.getD t []) (betaCols.getD t [])).sum
  simp only [List.map_id'] at h
  rw [h, div_self hden]

lemma gamma_entry (alphaCols betaCols : List (List ℚ)) (i t : ℕ)
    (ht1 : t < alphaCols.length) (ht2 : t < betaCols.length)
    (hi1 : i < (alphaCols.getD t []).length) (hi2 : i < (betaCols.getD t []).length) :
    eltC (calculate_gammas alphaCols betaCols) i t =
      ((alphaCols.getD t []).getD i 0 * (betaCols.getD t []).getD i 0) /
        (hadamard (alphaCols.getD t []) (betaCols.getD t [])).sum := by
  rw [eltC, calculate_gammas_getD alphaCols betaCols t ht1 ht2,
    getD_map_of_lt _ _ i (by rw [hadamard_length]; omega) 0,
    hadamard_getD _ _ i hi1 hi2]

lemma consecPairs_mem : ∀ (l : List ℕ) (p : ℕ × ℕ), p ∈ consecPairs l →
    p.1 ∈ l ∧ p.2 ∈ l
  | [], p, hp => by simp [consecPairs] at hp
  | [a], p, hp => by simp [consecPairs] at hp
  | a :: b :: rest, p, hp => by
      rcases List.mem_cons.mp hp with h | h
      · subst h
        exact ⟨List.mem_cons_self _ _,
          List.mem_cons.mpr (Or.inr (List.mem_cons_self _ _))⟩
      · have hm := consecPairs_mem (b :: rest) p h
        exact ⟨List.mem_cons.mpr (Or.inr hm.1), List.mem_cons.mpr (Or.inr hm.2)⟩

lemma backward_col_entry (A B : List (List ℚ)) (o : ℕ) (v : List ℚ) (i : ℕ)
    (hAl : A.length = 2) (hAr : ∀ r ∈ A, r.length = 2) (hBl : B.length = 2)
    (hv : v.length = 2) (hi : i < 2) :
    (matVec (rowBroadcastMul A (col B o)) v).getD i 0 =
      ∑ j ∈ Finset.range 2, eltM A i j * eltM B j o * v.getD j 0 := by
  have hAi : (A.getD i []).length = 2 := hAr _ (getD_mem A i [] (by omega))
  rw [matVec_getD _ _ i (by rw [rowBroadcastMul_length]; omega),
    rowBroadcastMul_getD _ _ i (by omega),
    dot_eq_sum _ v 2 (by rw [hadamard_length, hAi, col_length, hBl, min_self]) hv]
  refine Finset.sum_congr rfl fun j hj => ?_
  rw [Finset.mem_range] at hj
  rw [hadamard_getD _ _ j (by omega) (by rw [col_length, hBl]; omega),
    col_getD B o j (by omega)]
  rfl

lemma zipWith_congr_fun (f g : α → β → γ) (l1 : List α) (l2 : List β)
    (h : ∀ a b, f a b = g a b) : List.zipWith f l1 l2 = List.zipWith g l1 l2 := by
  induction l1 generalizing l2 with
  | nil => simp
  | cons a l1 ih =>
      cases l2 with
      | nil => simp
      | cons b l2 => simp [h a b, ih]

lemma sum_zipWith_add (u v : List ℚ) (h : u.length = v.length) :
    (List.zipWith (· + ·) u v).sum = u.sum + v.sum := by
  induction u generalizing v with
  | nil =>
      cases v with
      | nil => simp
      | cons b v => simp at h
  | cons a u ih =>
      cases v with
      | nil => simp at h
      | cons b v =>
          simp only [List.zipWith_cons_cons, List.sum_cons, ih v (by simpa using h)]
          ring

lemma scaleRows_getD (v : List ℚ) (M : List (List ℚ)) (i : ℕ)
    (h1 : i < v.length) (h2 : i < M.length) :
    (scaleRows v M).getD i [] = (M.getD i []).map (fun x => v.getD i 0 * x) :=
  zipWith_getD _ v M i h1 h2 0 [] []

lemma scaleRows_length (v : List ℚ) (M : List (List ℚ)) :
    (scaleRows v M).length = min v.length M.length := List.length_zipWith ..

lemma scaled_row_sum (c : ℚ) (r bcol betacol : List ℚ) :
    (hadamard (hadamard (r.map (fun x => c * x)) bcol) betacol).sum =
      c * dot (hadamard r bcol) betacol := by
  rw [hadamard_map_mul_left, hadamard_map_mul_left]
  have h := List.sum_map_mul_left (hadamard (hadamard r bcol) betacol) (fun x => x) c
  simp only [List.map_id'] at h
  exact h.trans (by rw [dot])

lemma zeta_totalSum (A B : List (List ℚ)) (fwd : List ℚ) (o : ℕ) (betacol : List ℚ) :
    totalSum ((scaleRows fwd A).map (fun r => hadamard (hadamard r (col B o)) betacol)) =
      dot fwd (matVec (rowBroadcastMul A (col B o)) betacol) := by
  rw [totalSum, List.map_map, dot]
  show (List.map (List.sum ∘ fun r => hadamard (hadamard r (col B o)) betacol)
      (scaleRows fwd A)).sum = _
  rw [scaleRows, List.map_zipWith]
  rw [hadamard, matVec, rowBroadcastMul, List.map_map,
    List.zipWith_map_right fwd A
      ((fun r => dot r betacol) ∘ fun r => hadamard r (col B o)) (· * ·)]
  congr 1
  refine zipWith_congr_fun _ _ fwd A fun c r => ?_
  exact scaled_row_sum c r (col B o) betacol

lemma zetaStep_getD (A B : List (List ℚ)) (fwd : List ℚ) (o : ℕ) (betacol : List ℚ)
    (i : ℕ) (hif : i < fwd.length) (hiA : i < A.length) :
    (zetaStep A B fwd o betacol).getD i [] =
      (hadamard (hadamard ((A.getD i []).map (fun x => fwd.getD i 0 * x)) (col B o))
        betacol).map
        (fun x => x / totalSum ((scaleRows fwd A).map
          (fun r => hadamard (hadamard r (col B o)) betacol))) := by
  rw [zetaStep, matDivScalar,
    getD_map_of_lt _ _ i (by rw [List.length_map, scaleRows_length]; omega) [],
    getD_map_of_lt _ _ i (by rw [scaleRows_length]; omega) [],
    scaleRows_getD fwd A i hif hiA]

lemma zetaStep_length (A B : List (List ℚ)) (fwd : List ℚ) (o : ℕ) (betacol : List ℚ) :
    (zetaStep A B fwd o betacol).length = min fwd.length A.length := by
  rw [zetaStep, matDivScalar, List.length_map, List.length_map, scaleRows_length]

lemma zetaStep_row_length (N : ℕ) (A B : List (List ℚ)) (fwd : List ℚ) (o : ℕ)
    (betacol : List ℚ) (i : ℕ) (hif : i < fwd.length) (hiA : i < A.length)
    (hAi : (A.getD i []).length = N) (hBl : B.length = N) (hbc : betacol.length = N) :
    ((zetaStep A B fwd o betacol).getD i []).length = N := by
  rw [zetaStep_getD A B fwd o betacol i hif hiA, List.length_map, hadamard_length,
    hadamard_length, List.length_map, hAi, col_length, hBl, hbc, min_self, min_self]

lemma zetaStep_row_sum (A B : List (List ℚ)) (fwd : List ℚ) (o : ℕ) (betacol : List ℚ)
    (i : ℕ) (hif : i < fwd.length) (hiA : i < A.length) :
    ((zetaStep A B fwd o betacol).getD i []).sum =
      (fwd.getD i 0 * dot (hadamard (A.getD i []) (col B o)) betacol) /
        dot fwd (matVec (rowBroadcastMul A (col B o)) betacol) := by
  rw [zetaStep_getD A B fwd o betacol i hif hiA,
    sum_map_div _ (fun x => x) _]
  simp only [List.map_id']
  rw [scaled_row_sum, zeta_totalSum]

lemma matAdd_getD (X Y : List (List ℚ)) (i : ℕ) (h1 : i < X.length) (h2 : i < Y.length) :
    (matAdd X Y).getD i [] = List.zipWith (· + ·) (X.getD i []) (Y.getD i []) :=
  zipWith_getD _ X Y i h1 h2 [] [] []

lemma foldl_matAdd_spec (N : ℕ) (L : List (List (List ℚ))) (acc : List (List ℚ))
    (hacc : acc.length = N ∧ ∀ i < N, (acc.getD i []).length = N)
    (hL : ∀ X ∈ L, X.length = N ∧ ∀ i < N, (X.getD i []).length = N) :
    (L.foldl matAdd acc).length = N ∧
    (∀ i < N, ((L.foldl matAdd acc).getD i []).length = N) ∧
    (∀ i < N, ((L.foldl matAdd acc).getD i []).sum =
      (acc.getD i []).sum + (L.map (fun X => (X.getD i []).sum)).sum) := by
  induction L generalizing acc with
  | nil => exact ⟨hacc.1, hacc.2, fun i hi => by simp⟩
  | cons X L ih =>
      obtain ⟨hX1, hX2⟩ := hL X (List.mem_cons_self X L)
      have hstep : (matAdd acc X).length = N ∧
          ∀ i < N, ((matAdd acc X).getD i []).length = N := by
        refine ⟨by rw [matAdd, List.length_zipWith, hacc.1, hX1, min_self], ?_⟩
        intro i hi
        rw [matAdd_getD acc X i (by omega) (by omega), List.length_zipWith,
          hacc.2 i hi, hX2 i hi, min_self]
      have hrest := ih (matAdd acc X) hstep
        (fun Y hY => hL Y (List.mem_cons.mpr (Or.inr hY)))
      refine ⟨hrest.1, hrest.2.1, fun i hi => ?_⟩
      rw [List.foldl_cons, hrest.2.2 i hi,
        matAdd_getD acc X i (by omega) (by omega),
        sum_zipWith_add _ _ (by rw [hacc.2 i hi, hX2 i hi]), List.map_cons,
        List.sum_cons]
      ring

lemma rowSums_length (n : ℕ) (cols : List (List ℚ)) : (rowSums n cols).length = n := by
  rw [rowSums, List.length_map, List.length_range]

lemma rowSums_getD (n : ℕ) (cols : List (List ℚ)) (i : ℕ) (hi : i < n) :
    (rowSums n cols).getD i 0 = ∑ t ∈ Finset.range cols.length, eltC cols i t := by
  rw [rowSums, getD_range_map _ _ _ hi, sum_map_getD cols _ []]
  rfl

lemma transposeL_length (M : List (List ℚ)) : (transposeL M).length = ncols M := by
  rw [transposeL, List.length_map, List.length_range]

lemma transposeL_getD (M : List (List ℚ)) (i : ℕ) (hi : i < ncols M) :
    (transposeL M).getD i [] = M.map (fun r => r.getD i 0) :=
  getD_range_map _ _ _ hi []

lemma eoo_length (index : List ℕ) (g : List (List ℚ)) (sg : List ℚ) :
    (expected_output_occurrence index g sg).length = sg.length := by
  rw [expected_output_occurrence, List.length_zipWith, rowSums_length, min_self]

lemma eoo_getD (index : List ℕ) (g : List (List ℚ)) (sg : List ℚ) (i : ℕ)
    (hi : i < sg.length) :
    (expected_output_occurrence index g sg).getD i 0 =
      (index.map (fun t => eltC g i t)).sum / sg.getD i 0 := by
  rw [expected_output_occurrence,
    zipWith_getD _ _ _ i (by rw [rowSums_length]; omega) hi 0 0 0,
    rowSums_getD sg.length _ i hi, List.length_map,
    sum_map_getD index (fun t => eltC g i t) 0]
  congr 1
  refine Finset.sum_congr rfl fun t ht => ?_
  rw [Finset.mem_range] at ht
  rw [eltC, eltC, getD_map_of_lt _ index t ht 0]

lemma sum_filter_range (n : ℕ) (p : ℕ → Prop) [DecidablePred p] (f : ℕ → ℚ) :
    (((List.range n).filter (fun t => p t)).map f).sum =
      ∑ t ∈ (Finset.range n).filter p, f t := by
  induction n with
  | zero => simp
  | succ n ih =>
      rw [List.range_succ, List.filter_append, List.map_append, List.sum_append,
        Finset.range_succ, Finset.filter_insert, ih]
      by_cases hp : p n
      · rw [if_pos hp,
          Finset.sum_insert (fun hmem => Finset.not_mem_range_self
            (Finset.mem_of_mem_filter n hmem))]
        simp [hp]
        ring
      · rw [if_neg hp]
        simp [hp]

lemma sum_over_syms (obs : List ℕ) (f : ℕ → ℚ) :
    ((List.insertionSort (fun a b => a ≤ b) obs.dedup).map
      (fun k => ∑ t ∈ (Finset.range obs.length).filter (fun t => obs.getD t 0 = k),
        f t)).sum =
      ∑ t ∈ Finset.range obs.length, f t := by
  have hperm : (List.insertionSort (fun a b => a ≤ b) obs.dedup).Perm obs.dedup :=
    List.perm_insertionSort _ _
  rw [(hperm.map _).sum_eq, ← List.sum_toFinset _ (List.nodup_dedup obs)]
  have htf : obs.dedup.toFinset = obs.toFinset := by
    ext a
    simp [List.mem_toFinset, List.mem_dedup]
  rw [htf]
  exact Finset.sum_fiberwise_of_maps_to
    (fun t ht => List.mem_toFinset.mpr
      (getD_mem obs t 0 (Finset.mem_range.mp ht))) f

lemma getD_dropLast (l : List (List ℚ)) (t : ℕ) (ht : t < l.dropLast.length) :
    l.dropLast.getD t [] = l.getD t [] := by
  have ht' : t < l.length := by
    rw [List.length_dropLast] at ht
    omega
  rw [List.getD_eq_getElem _ _ ht, List.getD_eq_getElem _ _ ht']
  exact List.getElem_dropLast l t ht

lemma getD_drop_one (l : List α) (t : ℕ) (d : α) (ht : t < (l.drop 1).length) :
    (l.drop 1).getD t d = l.getD (1 + t) d := by
  have ht' : 1 + t < l.length := by
    rw [List.length_drop] at ht
    omega
  rw [List.getD_eq_getElem _ _ ht, List.getD_eq_getElem _ _ ht']
  exact List.getElem_drop l

lemma zetas_elem_shape (N : ℕ) (A B : List (List ℚ)) (aCols betaCols : List (List ℚ))
    (obs : List ℕ)
    (hAl : A.length = N) (hAr : ∀ r ∈ A, r.length = N) (hBl : B.length = N)
    (hac : ∀ t < aCols.length, (aCols.getD t []).length = N)
    (hbc : ∀ t < betaCols.length, (betaCols.getD t []).length = N) :
    ∀ X ∈ zipWith3 (fun fwd o betacol => zetaStep A B fwd o betacol)
        aCols (obs.drop 1) (betaCols.drop 1),
      X.length = N ∧ ∀ i < N, (X.getD i []).length = N := by
  intro X hX
  obtain ⟨t, ht, hXe⟩ := List.mem_iff_getElem.mp hX
  rw [zipWith3_length] at ht
  have ht1 : t < aCols.length := by omega
  have ht2 : t < (obs.drop 1).length := by omega
  have ht3 : t < (betaCols.drop 1).length := by omega
  have hXd : X = zetaStep A B (aCols.getD t []) ((obs.drop 1).getD t 0)
      ((betaCols.drop 1).getD t []) := by
    rw [← hXe, ← List.getD_eq_getElem _ []
        (by rw [zipWith3_length]; omega),
      zipWith3_getD _ aCols (obs.drop 1) (betaCols.drop 1) t ht1 ht2 ht3 [] [] 0 []]
  have hfwd : (aCols.getD t []).length = N := hac t ht1
  have hbcol : ((betaCols.drop 1).getD t []).length = N := by
    rw [getD_drop_one betaCols t [] ht3]
    refine hbc (1 + t) ?_
    rw [List.length_drop] at ht3
    omega
  subst hXd
  constructor
  · rw [zetaStep_length, hfwd, hAl, min_self]
  · intro i hi
    exact zetaStep_row_length N A B _ _ _ i (by omega) (by omega)
      (hAr _ (getD_mem A i [] (by omega))) hBl hbcol

lemma summed_zetas_shape (N : ℕ) (A B : List (List ℚ)) (aCols betaCols : List (List ℚ))
    (obs : List ℕ) (z : List (List ℚ))
    (hAl : A.length = N) (hAr : ∀ r ∈ A, r.length = N) (hBl : B.length = N)
    (hac : ∀ t < aCols.length, (aCols.getD t []).length = N)
    (hbc : ∀ t < betaCols.length, (betaCols.getD t []).length = N)
    (hz : calculate_zetas A B aCols betaCols obs = some z) :
    z.length = N ∧ ∀ i < N, (z.getD i []).length = N := by
  have hform := zetas_elem_shape N A B aCols betaCols obs hAl hAr hBl hac hbc
  rw [calculate_zetas] at hz
  cases hzet : zipWith3 (fun fwd o betacol => zetaStep A B fwd o betacol)
      aCols (obs.drop 1) (betaCols.drop 1) with
  | nil =>
      rw [hzet] at hz
      simp at hz
  | cons z0 zs =>
      rw [hzet] at hz
      simp only [Option.some.injEq] at hz
      subst hz
      have hspec := foldl_matAdd_spec N zs z0
        (hform z0 (by rw [hzet]; exact List.mem_cons_self z0 zs))
        (fun Y hY => hform Y (by rw [hzet]; exact List.mem_cons.mpr (Or.inr hY)))
      exact ⟨hspec.1, hspec.2.1⟩

lemma summed_zetas_row_sum (A B : List (List ℚ)) (F betaCols : List (List ℚ))
    (obs : List ℕ) (z : List (List ℚ)) (T : ℕ)
    (hT : 2 ≤ T) (hoT : obs.length = T) (hFl : F.length = T)
    (hFc : ∀ t < T, (F.getD t []).length = 2)
    (hbl : betaCols.length = T) (hbc : ∀ t < T, (betaCols.getD t []).length = 2)
    (hAl : A.length = 2) (hAr : ∀ r ∈ A, r.length = 2) (hBl : B.length = 2)
    (hrec : ∀ t, t + 1 < T → betaCols.getD t [] =
      matVec (rowBroadcastMul A (col B (obs.getD (t + 1) 0))) (betaCols.getD (t + 1) []))
    (hz : calculate_zetas A B F.dropLast betaCols obs = some z) :
    ∀ i < 2, (z.getD i []).sum =
      ∑ t ∈ Finset.range (T - 1), eltC (calculate_gammas F betaCols) i t := by
  have hacd : ∀ t < F.dropLast.length, (F.dropLast.getD t []).length = 2 := by
    intro t ht
    rw [getD_dropLast F t ht]
    refine hFc t ?_
    rw [List.length_dropLast] at ht
    omega
  have hbcd : ∀ t < betaCols.length, (betaCols.getD t []).length = 2 := by
    rw [hbl]
    exact hbc
  have hform := zetas_elem_shape 2 A B F.dropLast betaCols obs hAl hAr hBl hacd hbcd
  have hzl : (zipWith3 (fun fwd o betacol => zetaStep A B fwd o betacol)
      F.dropLast (obs.drop 1) (betaCols.drop 1)).length = T - 1 := by
    rw [zipWith3_length, List.length_dropLast, List.length_drop, List.length_drop,
      hoT, hFl, hbl]
    omega
  have hstep : ∀ t < T - 1, ∀ i < 2,
      (((zipWith3 (fun fwd o betacol => zetaStep A B fwd o betacol)
        F.dropLast (obs.drop 1) (betaCols.drop 1)).getD t []).getD i []).sum =
      eltC (calculate_gammas F betaCols) i t := by
    intro t ht i hi
    have ht1 : t < F.dropLast.length := by rw [List.length_dropLast, hFl]; omega
    have ht2 : t < (obs.drop 1).length := by rw [List.length_drop, hoT]; omega
    have ht3 : t < (betaCols.drop 1).length := by rw [List.length_drop, hbl]; omega
    rw [zipWith3_getD _ F.dropLast (obs.drop 1) (betaCols.drop 1) t ht1 ht2 ht3 [] [] 0 [],
      getD_dropLast F t ht1, getD_drop_one obs t 0 ht2, getD_drop_one betaCols t [] ht3]
    have hfwd : (F.getD t []).length = 2 := hFc t (by omega)
    rw [zetaStep_row_sum A B _ _ _ i (by omega) (by omega)]
    have hnum : dot (hadamard (A.getD i []) (col B (obs.getD (1 + t) 0)))
        (betaCols.getD (1 + t) []) = (betaCols.getD t []).getD i 0 := by
      rw [show (1 : ℕ) + t = t + 1 by omega, hrec t (by omega),
        matVec_getD _ _ i (by rw [rowBroadcastMul_length]; omega),
        rowBroadcastMul_getD A _ i (by omega)]
    have hden : dot (F.getD t [])
        (matVec (rowBroadcastMul A (col B (obs.getD (1 + t) 0)))
          (betaCols.getD (1 + t) [])) =
        dot (F.getD t []) (betaCols.getD t []) := by
      rw [show (1 : ℕ) + t = t + 1 by omega, hrec t (by omega)]
    rw [hnum, hden,
      gamma_entry F betaCols i t (by omega) (by omega)
        (by rw [hFc t (by omega)]; omega) (by rw [hbc t (by omega)]; omega)]
    rfl
  rw [calculate_zetas] at hz
  cases hzet : zipWith3 (fun fwd o betacol => zetaStep A B fwd o betacol)
      F.dropLast (obs.drop 1) (betaCols.drop 1) with
  | nil =>
      rw [hzet] at hz
      simp at hz
  | cons z0 zs =>
      rw [hzet] at hz
      simp only [Option.some.injEq] at hz
      subst hz
      intro i hi
      have hspec := foldl_matAdd_spec 2 zs z0
        (hform z0 (by rw [hzet]; exact List.mem_cons_self z0 zs))
        (fun Y hY => hform Y (by rw [hzet]; exact List.mem_cons.mpr (Or.inr hY)))
      rw [hspec.2.2 i hi]
      have hall : ((z0 :: zs).map (fun X => (X.getD i []).sum)).sum =
          ∑ t ∈ Finset.range (T - 1),
            (((z0 :: zs).getD t []).getD i []).sum := by
        rw [sum_map_getD (z0 :: zs) (fun X => (X.getD i []).sum) []]
        rw [show (z0 :: zs).length = T - 1 by rw [← hzet]; exact hzl]
      have hfirst : ((z0 :: zs).map (fun X => (X.getD i []).sum)).sum =
          (z0.getD i []).sum + (zs.map (fun X => (X.getD i []).sum)).sum := by
        rw [List.map_cons, List.sum_cons]
      rw [← hfirst, hall]
      refine Finset.sum_congr rfl fun t ht => ?_
      rw [Finset.mem_range] at ht
      rw [← hzet, hstep t ht i hi]

lemma ncols_eoo_map (N : ℕ) (g : List (List ℚ)) (idxl : List (List ℕ))
    (hne : idxl ≠ []) :
    ncols (idxl.map (fun idx => expected_output_occurrence idx g (rowSums N g))) = N := by
  cases idxl with
  | nil => exact absurd rfl hne
  | cons idx0 idxs =>
      show ((expected_output_occurrence idx0 g (rowSums N g) :: _).headD []).length = N
      rw [List.headD_cons, eoo_length, rowSums_length]

lemma sorted_map_ne_nil (obs : List ℕ) (f : ℕ → List ℕ) (hobs : obs ≠ []) :
    (List.insertionSort (fun a b => a ≤ b) obs.dedup).map f ≠ [] := by
  intro h
  have hlm := congrArg List.length h
  rw [List.length_map, List.length_insertionSort, List.length_nil] at hlm
  exact hobs ((List.dedup_eq_nil obs).mp (List.length_eq_zero.mp hlm))

lemma re_estimate_spec (A B : List (List ℚ)) (alphaCols betaCols : List (List ℚ))
    (obs : List ℕ) (z : List (List ℚ))
    (hz : calculate_zetas A B alphaCols.dropLast betaCols obs = some z) :
    re_estimate_parameters A B alphaCols betaCols obs =
      some ((calculate_gammas alphaCols betaCols).getD 0 [],
        List.zipWith (fun r s => r.map (fun x => x / s)) z
          (rowSums (alphaCols.headD []).length
            (calculate_gammas alphaCols betaCols).dropLast),
        transposeL (((List.insertionSort (fun a b => a ≤ b) obs.dedup).map
          (fun k => (List.range obs.length).filter (fun t => obs.getD t 0 = k))).map
          (fun idx => expected_output_occurrence idx
            (calculate_gammas alphaCols betaCols)
            (rowSums (alphaCols.headD []).length
              (calculate_gammas alphaCols betaCols))))) := by
  simp only [re_estimate_parameters, hz, List.map_map]

end HMM

/-- C3 amended: the re-estimator returns `new_pi = γ[:,0]`,
`new_A[i,j] = summed_zeta[i,j] / Σ_{t≤T-2} γ[i,t]`, and an emission matrix
whose columns are produced ONLY for the distinct symbols occurring in `obs`,
in increasing symbol order (not for every symbol of the alphabet): column `c`
holds `(Σ_{t : obs t = k_c} γ[i,t]) / Σ_{t<T} γ[i,t]` where `k_c` is the
`c`-th smallest distinct observed symbol. -/
theorem re_estimate_entries_C3
    (N T M0 : ℕ) (A B : List (List ℚ)) (alphaCols betaCols : List (List ℚ))
    (obs : List ℕ) (z : List (List ℚ)) (p : List ℚ) (A2 B2 : List (List ℚ))
    (hN : 1 ≤ N) (hT : 1 ≤ T)
    (hAl : A.length = N) (hAr : ∀ r ∈ A, r.length = N)
    (hBl : B.length = N) (hBr : ∀ r ∈ B, r.length = M0)
    (hal : alphaCols.length = T) (hbl : betaCols.length = T)
    (hac : ∀ c ∈ alphaCols, c.length = N) (hbc : ∀ c ∈ betaCols, c.length = N)
    (hoT : obs.length = T)
    (hz : HMM.calculate_zetas A B alphaCols.dropLast betaCols obs = some z)
    (hre : HMM.re_estimate_parameters A B alphaCols betaCols obs = some (p, A2, B2)) :
    p = (HMM.calculate_gammas alphaCols betaCols).getD 0 [] ∧
    (∀ i < N, ∀ j < N, HMM.eltM A2 i j =
      HMM.eltM z i j /
        ∑ t ∈ Finset.range (T - 1),
          HMM.eltC (HMM.calculate_gammas alphaCols betaCols) i t) ∧
    B2.length = N ∧
    (∀ i < N, (B2.getD i []).length =
      (List.insertionSort (fun a b => a ≤ b) obs.dedup).length) ∧
    (∀ i < N, ∀ c < (List.insertionSort (fun a b => a ≤ b) obs.dedup).length,
      HMM.eltM B2 i c =
        (∑ t ∈ (Finset.range T).filter (fun t => obs.getD t 0 =
            (List.insertionSort (fun a b => a ≤ b) obs.dedup).getD c 0),
          HMM.eltC (HMM.calculate_gammas alphaCols betaCols) i t) /
        ∑ t ∈ Finset.range T,
          HMM.eltC (HMM.calculate_gammas alphaCols betaCols) i t) := by
  have hacd : ∀ t < alphaCols.dropLast.length, (alphaCols.dropLast.getD t []).length = N := by
    intro t ht
    rw [HMM.getD_dropLast alphaCols t ht]
    refine hac _ (HMM.getD_mem alphaCols t [] ?_)
    rw [List.length_dropLast] at ht
    omega
  have hbcd : ∀ t < betaCols.length, (betaCols.getD t []).length = N :=
    fun t ht => hbc _ (HMM.getD_mem betaCols t [] ht)
  obtain ⟨hz1, hz2⟩ := HMM.summed_zetas_shape N A B alphaCols.dropLast betaCols obs z
    hAl hAr hBl hacd hbcd hz
  have hn : (alphaCols.headD []).length = N := by
    rw [HMM.headD_eq_getD]
    exact hac _ (HMM.getD_mem alphaCols 0 [] (by omega))
  have hglen : (HMM.calculate_gammas alphaCols betaCols).length = T := by
    rw [HMM.calculate_gammas_length, hal, hbl, min_self]
  have hgc : ∀ t < T, ((HMM.calculate_gammas alphaCols betaCols).getD t []).length = N := by
    intro t ht
    rw [HMM.calculate_gammas_getD alphaCols betaCols t (by omega) (by omega),
      List.length_map, HMM.hadamard_length,
      hac _ (HMM.getD_mem alphaCols t [] (by omega)),
      hbc _ (HMM.getD_mem betaCols t [] (by omega)), min_self]
  rw [HMM.re_estimate_spec A B alphaCols betaCols obs z hz] at hre
  simp only [Option.some.injEq, Prod.mk.injEq] at hre
  obtain ⟨hp, hA2, hB2⟩ := hre
  subst hp hA2 hB2
  rw [hn]
  have hone : obs ≠ [] := by
    intro h
    have h0 : obs.length = 0 := by rw [h]; rfl
    omega
  have hnel := HMM.sorted_map_ne_nil obs
    (fun k => (List.range obs.length).filter (fun t => obs.getD t 0 = k)) hone
  have hncl : HMM.ncols (((List.insertionSort (fun a b => a ≤ b) obs.dedup).map
      (fun k => (List.range obs.length).filter (fun t => obs.getD t 0 = k))).map
      (fun idx => HMM.expected_output_occurrence idx
        (HMM.calculate_gammas alphaCols betaCols)
        (HMM.rowSums N (HMM.calculate_gammas alphaCols betaCols)))) = N :=
    HMM.ncols_eoo_map N (HMM.calculate_gammas alphaCols betaCols) _ hnel
  refine ⟨rfl, ?_, ?_, ?_, ?_⟩
  · intro i hi j hj
    rw [HMM.eltM,
      HMM.zipWith_getD _ z _ i (by omega) (by rw [HMM.rowSums_length]; omega) [] 0 [],
      HMM.getD_map_of_lt _ _ j (by rw [hz2 i hi]; omega) 0,
      HMM.rowSums_getD N _ i hi]
    have hdll : (HMM.calculate_gammas alphaCols betaCols).dropLast.length = T - 1 := by
      rw [List.length_dropLast, hglen]
    rw [hdll]
    congr 1
    refine Finset.sum_congr rfl fun t ht => ?_
    rw [Finset.mem_range] at ht
    rw [HMM.eltC, HMM.eltC, HMM.getD_dropLast _ t (by rw [hdll]; omega)]
  · rw [HMM.transposeL_length, hncl]
  · intro i hi
    rw [HMM.transposeL_getD _ i (by rw [hncl]; omega), List.length_map,
      List.length_map, List.length_map]
  · intro i hi c hc
    rw [HMM.eltM, HMM.transposeL_getD _ i (by rw [hncl]; omega),
      HMM.getD_map_of_lt _ _ c (by rw [List.length_map, List.length_map]; exact hc) [],
      HMM.getD_map_of_lt _ _ c (by rw [List.length_map]; exact hc) [],
      HMM.getD_map_of_lt _ _ c hc 0,
      HMM.eoo_getD _ _ _ i (by rw [HMM.rowSums_length]; omega),
      HMM.rowSums_getD N _ i hi, hglen,
      HMM.sum_filter_range obs.length
        (fun t => obs.getD t 0 =
          (List.insertionSort (fun a b => a ≤ b) obs.dedup).getD c 0)
        (fun t => HMM.eltC (HMM.calculate_gammas alphaCols betaCols) i t),
      hoT]

/-- C1: for every HMM parameter triple with `N` states and every observation
sequence of length `T ≥ 1`, the forward engine with normalization off returns
an `N × T` table with `α[i,0] = π_i * B[i, obs 0]` and, for `t = 1..T-1`,
`α[i,t] = B[i, obs t] * Σ_j α[j,t-1] * A[j,i]`; for `T = 1` only the
initialization column is produced. -/
theorem forward_table_C1 (N M : ℕ) (pi : List ℚ) (A B : List (List ℚ)) (obs : List ℕ)
    (hN : 1 ≤ N) (hpl : pi.length = N) (hAl : A.length = N)
    (hAr : ∀ r ∈ A, r.length = N) (hBl : B.length = N) (hBr : ∀ r ∈ B, r.length = M)
    (hobs : ∀ o ∈ obs, o < M) (hT : 1 ≤ obs.length) :
    (HMM.forward pi A B obs).length = obs.length ∧
    (∀ t < obs.length, ((HMM.forward pi A B obs).getD t []).length = N) ∧
    (∀ i < N, HMM.eltC (HMM.forward pi A B obs) i 0 =
      pi.getD i 0 * HMM.eltM B i (obs.getD 0 0)) ∧
    (∀ t, t + 1 < obs.length → ∀ i < N,
      HMM.eltC (HMM.forward pi A B obs) i (t + 1) =
        HMM.eltM B i (obs.getD (t + 1) 0) *
          ∑ j ∈ Finset.range N,
            HMM.eltC (HMM.forward pi A B obs) j t * HMM.eltM A j i) := by
  refine ⟨HMM.forward_length pi A B obs,
    fun t ht => HMM.forward_col_length N pi A B obs hN hpl hAl hAr hBl t ht, ?_, ?_⟩
  · intro i hi
    cases obs with
    | nil => simp at hT
    | cons o rest =>
        show (HMM.hadamard pi (HMM.col B o)).getD i 0 = _
        rw [HMM.hadamard_getD _ _ i (by omega) (by rw [HMM.col_length, hBl]; omega),
          HMM.col_getD B o i (by omega)]
        rfl
  · intro t ht i hi
    have hprev : ((HMM.forward pi A B obs).getD t []).length = N :=
      HMM.forward_col_length N pi A B obs hN hpl hAl hAr hBl t (by omega)
    show ((HMM.forward pi A B obs).getD (t + 1) []).getD i 0 = _
    rw [HMM.forward_getD_succ pi A B obs t ht,
      HMM.forwardStep_getD N A B _ _ i hN hAl hAr hBl hprev hi, mul_comm]
    rfl

/-- C1 witness: the general forward theorem applied to the notebook's
worked example (`N = 2`, `M = 3`, `obs = [0,1,2,2]`). -/
theorem forward_table_C1_witness :
    (HMM.forward Demo.piDemo Demo.A Demo.emission_matrix Demo.obs_sequence).length =
      Demo.obs_sequence.length ∧
    (∀ t < Demo.obs_sequence.length,
      ((HMM.forward Demo.piDemo Demo.A Demo.emission_matrix Demo.obs_sequence).getD t
        []).length = 2) ∧
    (∀ i < 2, HMM.eltC (HMM.forward Demo.piDemo Demo.A Demo.emission_matrix
        Demo.obs_sequence) i 0 =
      Demo.piDemo.getD i 0 * HMM.eltM Demo.emission_matrix i (Demo.obs_sequence.getD 0 0)) ∧
    (∀ t, t + 1 < Demo.obs_sequence.length → ∀ i < 2,
      HMM.eltC (HMM.forward Demo.piDemo Demo.A Demo.emission_matrix Demo.obs_sequence) i
          (t + 1) =
        HMM.eltM Demo.emission_matrix i (Demo.obs_sequence.getD (t + 1) 0) *
          ∑ j ∈ Finset.range 2,
            HMM.eltC (HMM.forward Demo.piDemo Demo.A Demo.emission_matrix
              Demo.obs_sequence) j t * HMM.eltM Demo.A j i) :=
  forward_table_C1 2 3 Demo.piDemo Demo.A Demo.emission_matrix Demo.obs_sequence
    (by decide) (by decide) (by decide) (by decide) (by decide) (by decide) (by decide)
    (by decide)

/-- C2 counterexample: for a one-state model (`N = 1`, `T = 1`) the backward
engine returns no table at all — the hard-coded initialization
`beta[:, -1] = [1.0, 1.0]` is a shape error — although the claim promises
the `1 × 1` table of ones for every `N ≥ 1`. -/
theorem backward_fails_N1_C2 : HMM.backward [[1]] [[1]] [0] = none := by decide

/-- C2 amended: for the two-state models the notebook supports (`N = 2`),
the backward engine with normalization off returns a `2 × T` table whose
final column is all ones and which satisfies
`β[i,t] = Σ_j A[i,j] * B[j, obs (t+1)] * β[j,t+1]`; for `T = 1` the column
of ones is the complete result. -/
theorem backward_table_C2 (M : ℕ) (A B : List (List ℚ)) (obs : List ℕ)
    (betaCols : List (List ℚ))
    (hAl : A.length = 2) (hAr : ∀ r ∈ A, r.length = 2)
    (hBl : B.length = 2) (hBr : ∀ r ∈ B, r.length = M)
    (hobs : ∀ o ∈ obs, o < M) (hT : 1 ≤ obs.length)
    (hb : HMM.backward A B obs = some betaCols) :
    betaCols.length = obs.length ∧
    (∀ t < obs.length, (betaCols.getD t []).length = 2) ∧
    (∀ i < 2, HMM.eltC betaCols i (obs.length - 1) = 1) ∧
    (∀ t, t + 1 < obs.length → ∀ i < 2,
      HMM.eltC betaCols i t = ∑ j ∈ Finset.range 2,
        HMM.eltM A i j * HMM.eltM B j (obs.getD (t + 1) 0) *
          HMM.eltC betaCols j (t + 1)) := by
  have hcond : A.length = 2 ∧ obs ≠ [] := by
    refine ⟨hAl, fun h => ?_⟩
    rw [h] at hT
    simp at hT
  rw [HMM.backward, if_pos hcond] at hb
  have hbeq : betaCols = HMM.backwardRec A B (obs.drop 1) := (Option.some.inj hb).symm
  subst hbeq
  have hld : (obs.drop 1).length = obs.length - 1 := List.length_drop 1 obs
  refine ⟨by rw [HMM.backwardRec_length, hld]; omega, ?_, ?_, ?_⟩
  · intro t ht
    exact HMM.backwardRec_col_length A B _ hAl t (by omega)
  · intro i hi
    show ((HMM.backwardRec A B (obs.drop 1)).getD (obs.length - 1) []).getD i 0 = 1
    rw [← hld, HMM.backwardRec_getD_last]
    interval_cases i <;> rfl
  · intro t ht i hi
    have htl : t < (obs.drop 1).length := by omega
    show ((HMM.backwardRec A B (obs.drop 1)).getD t []).getD i 0 = _
    rw [HMM.backwardRec_getD A B _ t htl]
    have hod : (obs.drop 1).getD t 0 = obs.getD (t + 1) 0 := by
      rw [List.getD_eq_getElem _ _ htl, List.getD_eq_getElem _ _ (by omega),
        List.getElem_drop]
      congr 1
      omega
    rw [hod]
    exact HMM.backward_col_entry A B _ _ i hAl hAr hBl
      (HMM.backwardRec_col_length A B _ hAl (t + 1) (by omega)) hi

/-- C2 witness: the amended backward theorem applied to the notebook's
worked example, whose exact `β` table is
`[[81/2500, 297/10000], [9/100, 9/100], [3/10, 3/10], [1, 1]]`. -/
theorem backward_table_C2_witness :
    ([[81/2500, 297/10000], [9/100, 9/100], [3/10, 3/10], [1, 1]] :
        List (List ℚ)).length = Demo.obs_sequence.length ∧
    (∀ t < Demo.obs_sequence.length,
      (([[81/2500, 297/10000], [9/100, 9/100], [3/10, 3/10], [1, 1]] :
        List (List ℚ)).getD t []).length = 2) ∧
    (∀ i < 2, HMM.eltC [[81/2500, 297/10000], [9/100, 9/100], [3/10, 3/10], [1, 1]]
      i (Demo.obs_sequence.length - 1) = 1) ∧
    (∀ t, t + 1 < Demo.obs_sequence.length → ∀ i < 2,
      HMM.eltC [[81/2500, 297/10000], [9/100, 9/100], [3/10, 3/10], [1, 1]] i t =
        ∑ j ∈ Finset.range 2,
          HMM.eltM Demo.A i j *
            HMM.eltM Demo.emission_matrix j (Demo.obs_sequence.getD (t + 1) 0) *
            HMM.eltC [[81/2500, 297/10000], [9/100, 9/100], [3/10, 3/10], [1, 1]] j
              (t + 1)) :=
  backward_table_C2 3 Demo.A Demo.emission_matrix Demo.obs_sequence
    [[81/2500, 297/10000], [9/100, 9/100], [3/10, 3/10], [1, 1]]
    (by decide) (by decide) (by decide) (by decide) (by decide) (by decide)
    (by
      rw [HMM.backward,
        if_pos (by decide : Demo.A.length = 2 ∧ Demo.obs_sequence ≠ [])]
      norm_num [HMM.backwardRec, HMM.matVec, HMM.rowBroadcastMul,
        HMM.hadamard, HMM.dot, HMM.col, Demo.A, Demo.emission_matrix, Demo.obs_sequence])


/-- C4: for every pair of `N × T` tables `α`, `β` whose per-time joint sums
`Σ_i α[i,t] * β[i,t]` are all non-zero, the gamma calculator returns an
`N × T` table every column of which sums to 1. -/
theorem gamma_columns_C4 (N T : ℕ) (alphaCols betaCols : List (List ℚ))
    (hal : alphaCols.length = T) (hbl : betaCols.length = T)
    (hac : ∀ c ∈ alphaCols, c.length = N) (hbc : ∀ c ∈ betaCols, c.length = N)
    (hden : ∀ t < T,
      (∑ i ∈ Finset.range N, HMM.eltC alphaCols i t * HMM.eltC betaCols i t) ≠ 0) :
    (HMM.calculate_gammas alphaCols betaCols).length = T ∧
    (∀ t < T, ((HMM.calculate_gammas alphaCols betaCols).getD t []).length = N) ∧
    (∀ t < T,
      ∑ i ∈ Finset.range N, HMM.eltC (HMM.calculate_gammas alphaCols betaCols) i t = 1) := by
  have hlen : ∀ t < T, (alphaCols.getD t []).length = N ∧ (betaCols.getD t []).length = N :=
    fun t ht => ⟨hac _ (HMM.getD_mem alphaCols t [] (by omega)),
      hbc _ (HMM.getD_mem betaCols t [] (by omega))⟩
  have hds : ∀ t < T,
      (HMM.hadamard (alphaCols.getD t []) (betaCols.getD t [])).sum =
        ∑ i ∈ Finset.range N, HMM.eltC alphaCols i t * HMM.eltC betaCols i t := by
    intro t ht
    obtain ⟨ha, hb⟩ := hlen t ht
    exact HMM.dot_eq_sum (alphaCols.getD t []) (betaCols.getD t []) N ha hb
  refine ⟨by rw [HMM.calculate_gammas_length, hal, hbl, min_self], ?_, ?_⟩
  · intro t ht
    obtain ⟨ha, hb⟩ := hlen t ht
    rw [HMM.calculate_gammas_getD alphaCols betaCols t (by omega) (by omega),
      List.length_map, HMM.hadamard_length, ha, hb, min_self]
  · intro t ht
    obtain ⟨ha, hb⟩ := hlen t ht
    have hg : ((HMM.calculate_gammas alphaCols betaCols).getD t []).length = N := by
      rw [HMM.calculate_gammas_getD alphaCols betaCols t (by omega) (by omega),
        List.length_map, HMM.hadamard_length, ha, hb, min_self]
    have hsum := HMM.sum_eq_sum_range ((HMM.calculate_gammas alphaCols betaCols).getD t [])
    rw [hg] at hsum
    have hcol := HMM.gamma_col_sum alphaCols betaCols t (by omega) (by omega)
      (by rw [hds t ht]; exact hden t ht)
    simp only [HMM.eltC]
    rw [← hsum, hcol]

/-- C4 witness: the gamma-column theorem applied to the concrete `2 × 1`
tables `α = β = [[1, 1]]`. -/
theorem gamma_columns_C4_witness :
    (HMM.calculate_gammas [[1, 1]] [[1, 1]]).length = 1 ∧
    (∀ t < 1, ((HMM.calculate_gammas [[1, 1]] [[1, 1]]).getD t []).length = 2) ∧
    (∀ t < 1, ∑ i ∈ Finset.range 2,
      HMM.eltC (HMM.calculate_gammas [[1, 1]] [[1, 1]]) i t = 1) :=
  gamma_columns_C4 2 1 [[1, 1]] [[1, 1]] (by decide) (by decide) (by decide) (by decide)
    (by
      intro t ht
      interval_cases t
      norm_num [Finset.sum_range_succ, HMM.eltC])

/-- C7: the `hidden_state_init` cell iterates over `Counter(sequence).values()`
— the occurrence counts, not the states — so for the two-state sequence
`[0, 1]` (both counts equal) it returns the single-entry vector `[1/2]`
instead of the per-state frequency vector `[1/2, 1/2]` that the spec's
`π_i = count(state i) / N_total` formula demands. -/
theorem hidden_state_init_bug_C7 :
    HMM.hidden_state_init [0, 1] = [1/2] ∧
    HMM.hidden_state_init [0, 1] ≠ [1/2, 1/2] := by
  constructor <;>
    norm_num [HMM.hidden_state_init, List.insertionSort, List.orderedInsert,
      List.dedup, List.count_cons]

/-- C8 counterexample: the initializer accepts the empty labeled input and
returns the triple of empty tensors instead of rejecting it with an
`InvalidInputError` as the claim states. -/
theorem no_validation_C8_counterexample :
    HMM.init_parameters [] [] = some ([], [], []) := by rfl

/-- C8 amended: the initializer performs no input validation — no
`InvalidInputError` exists in the code.  The empty input yields the triple
of empty tensors, and length-mismatched inputs (here a 1-state label
sequence against a 2-symbol observation sequence) are silently truncated by
`zip` and still yield a parameter triple. -/
theorem no_validation_C8 :
    HMM.init_parameters [] [] = some ([], [], []) ∧
    HMM.init_parameters [0] [0, 1] = some ([1], [[0]], [[1, 0]]) := by
  refine ⟨rfl, ?_⟩
  norm_num [HMM.init_parameters, HMM.trans_mat_init, HMM.emiss_state_init,
    HMM.hidden_state_init, HMM.consecPairs, List.insertionSort, List.orderedInsert,
    List.dedup, List.count_cons, List.range_succ]

/-- C10: `trans_mat_init` and `emiss_state_init` size their matrices by the
number of distinct values in the input and write at the raw values: when the
distinct states are exactly `0..K-1` every write is in bounds and the
transition matrix is `K × K`, while the gap-containing inputs `[0, 2]`
(states) and `[0, 2]`/`[0, 0]` (labels/observations) make a write fall
outside the allocated matrix and the initializer fail. -/
theorem init_sizing_C10 :
    (∀ (seq : List ℕ) (K : ℕ), seq.toFinset = Finset.range K →
      ∃ Mt, HMM.trans_mat_init seq = some Mt ∧ Mt.length = K ∧
        ∀ r ∈ Mt, r.length = K) ∧
    HMM.trans_mat_init [0, 2] = none ∧
    HMM.emiss_state_init [0, 2] [0, 0] = none := by
  refine ⟨?_, rfl, rfl⟩
  intro seq K hK
  have hdl : seq.dedup.length = K := by
    rw [← List.card_toFinset, hK, Finset.card_range]
  have hmem : ∀ a ∈ seq, a < K := by
    intro a ha
    have h1 : a ∈ seq.toFinset := List.mem_toFinset.mpr ha
    rw [hK] at h1
    exact Finset.mem_range.mp h1
  have hcond : ((HMM.consecPairs seq).all
      fun p => p.1 < seq.dedup.length && p.2 < seq.dedup.length) = true := by
    rw [List.all_eq_true]
    intro p hp
    obtain ⟨h1, h2⟩ := HMM.consecPairs_mem seq p hp
    simp [hdl, hmem _ h1, hmem _ h2]
  refine ⟨(List.range seq.dedup.length).map (fun a =>
      (List.range seq.dedup.length).map (fun b =>
        if (a, b) ∈ HMM.consecPairs seq then
          ((HMM.consecPairs seq).count (a, b) : ℚ) / (seq.count a : ℚ)
        else 0)), ?_, by simp [hdl], ?_⟩
  · rw [HMM.trans_mat_init, if_pos hcond]
  · intro r hr
    obtain ⟨a, ha, rfl⟩ := List.mem_map.mp hr
    simp [hdl]

/-- C10 witness: the sizing theorem applied to the dense-state input
`[0, 1, 0]`, whose distinct states are exactly `0..1`. -/
theorem init_sizing_C10_witness :
    ∃ Mt, HMM.trans_mat_init [0, 1, 0] = some Mt ∧ Mt.length = 2 ∧
      ∀ r ∈ Mt, r.length = 2 :=
  init_sizing_C10.1 [0, 1, 0] 2 (by decide)

/-- C9 amended: for an observation sequence of length `T = 1` the zeta
computation — called as in the notebook on `alpha[:, :-1]` — reaches
`torch.stack` on an empty list and raises instead of returning an all-zero
accumulator. -/
theorem zeta_single_step_error_C9 (pi : List ℚ) (A B : List (List ℚ))
    (betaCols : List (List ℚ)) (obs : List ℕ) (hT : obs.length = 1) :
    HMM.calculate_zetas A B ((HMM.forward pi A B obs).dropLast) betaCols obs = none := by
  cases obs with
  | nil => simp at hT
  | cons o rest =>
      have h0 : rest = [] := by simpa using hT
      subst h0
      rfl

/-- C9 witness: the length-one amended theorem at a concrete one-state
model. -/
theorem zeta_single_step_error_C9_witness :
    HMM.calculate_zetas [[1]] [[1]] ((HMM.forward [1] [[1]] [[1]] [0]).dropLast)
      [[1]] [0] = none :=
  zeta_single_step_error_C9 [1] [[1]] [[1]] [[1]] [0] rfl

/-- C9 counterexample: on the worked example's parameters with the
single-observation sequence `[0]`, the zeta computation returns no
accumulator at all (`torch.stack` of an empty list raises), contradicting
the claimed all-zero `N × N` result. -/
theorem zeta_T1_none_demo_C9 :
    HMM.calculate_zetas Demo.A Demo.emission_matrix
      ((HMM.forward Demo.piDemo Demo.A Demo.emission_matrix [0]).dropLast)
      [[1, 1]] [0] = none := by rfl

/-- C3 counterexample: with the 2-symbol alphabet model
`B = [[1/2,1/2],[1/2,1/2]]` and the observation sequence `[0, 0]` in which
symbol 1 never occurs, the re-estimator returns an emission matrix
`[[1], [1]]` with a single column — there is no column for symbol 1, so
`new_B` is NOT computed for every symbol `k` in `0..M-1` of the alphabet. -/
theorem reestimate_missing_symbol_C3 :
    HMM.re_estimate_parameters [[1/2, 1/2], [1/2, 1/2]] [[1/2, 1/2], [1/2, 1/2]]
        (HMM.forward [1/2, 1/2] [[1/2, 1/2], [1/2, 1/2]] [[1/2, 1/2], [1/2, 1/2]]
          [0, 0])
        [[1/2, 1/2], [1, 1]] [0, 0] =
      some ([1/2, 1/2], [[1/2, 1/2], [1/2, 1/2]], [[1], [1]]) ∧
    ¬ ∀ r ∈ ([[1], [1]] : List (List ℚ)), r.length = 2 := by
  constructor
  · norm_num [HMM.re_estimate_parameters, HMM.calculate_gammas, HMM.calculate_zetas,
      HMM.zipWith3, HMM.zetaStep, HMM.scaleRows, HMM.matDivScalar, HMM.totalSum,
      HMM.matAdd, HMM.hadamard, HMM.col, HMM.forward, HMM.forwardFrom,
      HMM.forwardStep, HMM.vecMat, HMM.dot, HMM.ncols, HMM.rowSums,
      HMM.expected_output_occurrence, HMM.transposeL, List.insertionSort,
      List.orderedInsert, List.dedup, List.count_cons, List.range_succ]
  · decide

/-- C3 witness: the amended re-estimation theorem applied to the notebook's
worked example. -/
theorem re_estimate_entries_C3_witness :
    ([36/47, 11/47] : List ℚ) =
      (HMM.calculate_gammas
        (HMM.forward Demo.piDemo Demo.A Demo.emission_matrix Demo.obs_sequence)
        [[81/2500, 297/10000], [9/100, 9/100], [3/10, 3/10], [1, 1]]).getD 0 [] ∧
    (∀ i < 2, ∀ j < 2,
      HMM.eltM [[543/865, 322/865], [341/1090, 749/1090]] i j =
        HMM.eltM [[543/470, 161/235], [341/940, 749/940]] i j /
          ∑ t ∈ Finset.range (4 - 1),
            HMM.eltC (HMM.calculate_gammas
              (HMM.forward Demo.piDemo Demo.A Demo.emission_matrix Demo.obs_sequence)
              [[81/2500, 297/10000], [9/100, 9/100], [3/10, 3/10], [1, 1]]) i t) ∧
    ([[720/2147, 560/2147, 867/2147], [220/1613, 380/1613, 1013/1613]] :
      List (List ℚ)).length = 2 ∧
    (∀ i < 2, (([[720/2147, 560/2147, 867/2147],
        [220/1613, 380/1613, 1013/1613]] : List (List ℚ)).getD i []).length =
      (List.insertionSort (fun a b => a ≤ b) Demo.obs_sequence.dedup).length) ∧
    (∀ i < 2, ∀ c < (List.insertionSort (fun a b => a ≤ b)
        Demo.obs_sequence.dedup).length,
      HMM.eltM [[720/2147, 560/2147, 867/2147], [220/1613, 380/1613, 1013/1613]] i c =
        (∑ t ∈ (Finset.range 4).filter (fun t => Demo.obs_sequence.getD t 0 =
            (List.insertionSort (fun a b => a ≤ b) Demo.obs_sequence.dedup).getD c 0),
          HMM.eltC (HMM.calculate_gammas
            (HMM.forward Demo.piDemo Demo.A Demo.emission_matrix Demo.obs_sequence)
            [[81/2500, 297/10000], [9/100, 9/100], [3/10, 3/10], [1, 1]]) i t) /
        ∑ t ∈ Finset.range 4,
          HMM.eltC (HMM.calculate_gammas
            (HMM.forward Demo.piDemo Demo.A Demo.emission_matrix Demo.obs_sequence)
            [[81/2500, 297/10000], [9/100, 9/100], [3/10, 3/10], [1, 1]]) i t) :=
  re_estimate_entries_C3 2 4 3 Demo.A Demo.emission_matrix
    (HMM.forward Demo.piDemo Demo.A Demo.emission_matrix Demo.obs_sequence)
    [[81/2500, 297/10000], [9/100, 9/100], [3/10, 3/10], [1, 1]]
    Demo.obs_sequence
    [[543/470, 161/235], [341/940, 749/940]]
    [36/47, 11/47]
    [[543/865, 322/865], [341/1090, 749/1090]]
    [[720/2147, 560/2147, 867/2147], [220/1613, 380/1613, 1013/1613]]
    (by decide) (by decide) (by decide) (by decide) (by decide) (by decide)
    (by
      rw [HMM.forward_length]
      rfl)
    (by decide)
    (by
      intro c hc
      have hl := HMM.forward_col_length 2 Demo.piDemo Demo.A Demo.emission_matrix
        Demo.obs_sequence (by decide) (by decide) (by decide) (by decide) (by decide)
      obtain ⟨t, ht, rfl⟩ := List.mem_iff_getElem.mp hc
      rw [← List.getD_eq_getElem _ [] ht]
      refine hl t ?_
      have := HMM.forward_length Demo.piDemo Demo.A Demo.emission_matrix
        Demo.obs_sequence
      omega)
    (by decide) (by decide)
    (by norm_num [HMM.calculate_zetas, HMM.zipWith3, HMM.zetaStep, HMM.scaleRows,
      HMM.matDivScalar, HMM.totalSum, HMM.matAdd, HMM.hadamard, HMM.col,
      HMM.forward, HMM.forwardFrom, HMM.forwardStep, HMM.vecMat, HMM.dot, HMM.ncols,
      Demo.A, Demo.emission_matrix, Demo.piDemo, Demo.obs_sequence, List.range_succ])
    (by norm_num [HMM.re_estimate_parameters, HMM.calculate_gammas, HMM.calculate_zetas,
      HMM.zipWith3, HMM.zetaStep, HMM.scaleRows, HMM.matDivScalar, HMM.totalSum,
      HMM.matAdd, HMM.hadamard, HMM.col, HMM.forward, HMM.forwardFrom, HMM.forwardStep,
      HMM.vecMat, HMM.dot, HMM.ncols, HMM.rowSums, HMM.expected_output_occurrence,
      HMM.transposeL, List.insertionSort, List.orderedInsert, List.dedup,
      List.count_cons, List.range_succ,
      Demo.A, Demo.emission_matrix, Demo.piDemo, Demo.obs_sequence])

/-- C5: for a valid row-stochastic parameter triple and an observation
sequence of length `T ≥ 2` on which the full E-step plus M-step pipeline
succeeds (forward, backward, gamma, zeta, re-estimation) with all posterior
denominators non-zero, the re-estimated parameters are again row-stochastic:
`new_pi` sums to 1 and every row of `new_A` and of `new_B` sums to 1
(exactly, in rational arithmetic). -/
theorem reestimated_row_stochastic_C5
    (M0 : ℕ) (pi : List ℚ) (A B : List (List ℚ)) (obs : List ℕ)
    (betaCols : List (List ℚ)) (p : List ℚ) (A2 B2 : List (List ℚ))
    (hpl : pi.length = 2) (hAl : A.length = 2) (hAr : ∀ r ∈ A, r.length = 2)
    (hBl : B.length = 2) (hBr : ∀ r ∈ B, r.length = M0)
    (hobs : ∀ o ∈ obs, o < M0) (hT : 2 ≤ obs.length)
    (hpis : pi.sum = 1) (hAs : ∀ r ∈ A, r.sum = 1) (hBs : ∀ r ∈ B, r.sum = 1)
    (hb : HMM.backward A B obs = some betaCols)
    (hden : ∀ t < obs.length,
      (HMM.hadamard ((HMM.forward pi A B obs).getD t [])
        (betaCols.getD t [])).sum ≠ 0)
    (hdenA : ∀ i < 2, (∑ t ∈ Finset.range (obs.length - 1),
      HMM.eltC (HMM.calculate_gammas (HMM.forward pi A B obs) betaCols) i t) ≠ 0)
    (hdenB : ∀ i < 2, (∑ t ∈ Finset.range obs.length,
      HMM.eltC (HMM.calculate_gammas (HMM.forward pi A B obs) betaCols) i t) ≠ 0)
    (hre : HMM.re_estimate_parameters A B (HMM.forward pi A B obs) betaCols obs =
      some (p, A2, B2)) :
    p.sum = 1 ∧ (∀ r ∈ A2, r.sum = 1) ∧ (∀ r ∈ B2, r.sum = 1) := by
  have hFl : (HMM.forward pi A B obs).length = obs.length :=
    HMM.forward_length pi A B obs
  have hFc : ∀ t < obs.length, ((HMM.forward pi A B obs).getD t []).length = 2 :=
    HMM.forward_col_length 2 pi A B obs (by omega) hpl hAl hAr hBl
  -- unpack the backward table
  have hcond : A.length = 2 ∧ obs ≠ [] := by
    refine ⟨hAl, fun h => ?_⟩
    rw [h] at hT
    simp at hT
  rw [HMM.backward, if_pos hcond] at hb
  have hbeq : betaCols = HMM.backwardRec A B (obs.drop 1) := (Option.some.inj hb).symm
  have hld : (obs.drop 1).length = obs.length - 1 := List.length_drop 1 obs
  have hbl : betaCols.length = obs.length := by
    rw [hbeq, HMM.backwardRec_length, hld]
    omega
  have hbc : ∀ t < obs.length, (betaCols.getD t []).length = 2 := by
    intro t ht
    rw [hbeq]
    exact HMM.backwardRec_col_length A B _ hAl t (by omega)
  have hrec : ∀ t, t + 1 < obs.length → betaCols.getD t [] =
      HMM.matVec (HMM.rowBroadcastMul A (HMM.col B (obs.getD (t + 1) 0)))
        (betaCols.getD (t + 1) []) := by
    intro t ht
    have htl : t < (obs.drop 1).length := by omega
    have hod : (obs.drop 1).getD t 0 = obs.getD (t + 1) 0 := by
      rw [HMM.getD_drop_one obs t 0 htl]
      congr 1
      omega
    conv_lhs => rw [hbeq, HMM.backwardRec_getD A B _ t htl, hod]
    rw [hbeq]
  -- extract the zeta accumulator from the successful re-estimation
  obtain ⟨z, hz⟩ : ∃ z, HMM.calculate_zetas A B
      (HMM.forward pi A B obs).dropLast betaCols obs = some z := by
    rw [HMM.re_estimate_parameters] at hre
    cases hcz : HMM.calculate_zetas A B (HMM.forward pi A B obs).dropLast
        betaCols obs with
    | none =>
        rw [hcz] at hre
        simp at hre
    | some z => exact ⟨z, rfl⟩
  have hacd : ∀ t < (HMM.forward pi A B obs).dropLast.length,
      ((HMM.forward pi A B obs).dropLast.getD t []).length = 2 := by
    intro t ht
    rw [HMM.getD_dropLast _ t ht]
    refine hFc t ?_
    rw [List.length_dropLast] at ht
    omega
  have hbcd : ∀ t < betaCols.length, (betaCols.getD t []).length = 2 := by
    rw [hbl]
    exact hbc
  obtain ⟨hz1, hz2⟩ := HMM.summed_zetas_shape 2 A B
    (HMM.forward pi A B obs).dropLast betaCols obs z hAl hAr hBl hacd hbcd hz
  have hzsum := HMM.summed_zetas_row_sum A B (HMM.forward pi A B obs) betaCols obs z
    obs.length hT rfl hFl hFc hbl hbc hAl hAr hBl hrec hz
  -- unfold the re-estimation output
  have hn : ((HMM.forward pi A B obs).headD []).length = 2 := by
    rw [HMM.headD_eq_getD]
    exact hFc 0 (by omega)
  rw [HMM.re_estimate_spec A B (HMM.forward pi A B obs) betaCols obs z hz, hn]
    at hre
  simp only [Option.some.injEq, Prod.mk.injEq] at hre
  obtain ⟨hp, hA2, hB2⟩ := hre
  subst hp hA2 hB2
  have hglen : (HMM.calculate_gammas (HMM.forward pi A B obs) betaCols).length =
      obs.length := by
    rw [HMM.calculate_gammas_length, hFl, hbl, min_self]
  refine ⟨?_, ?_, ?_⟩
  · exact HMM.gamma_col_sum _ _ 0 (by omega) (by omega) (hden 0 (by omega))
  · intro r hr
    obtain ⟨i, hiL, hre⟩ := List.mem_iff_getElem.mp hr
    have hiz : i < 2 := by
      rw [List.length_zipWith, hz1, HMM.rowSums_length] at hiL
      omega
    have hrd : r = (List.zipWith (fun r s => r.map (fun x => x / s)) z
        (HMM.rowSums 2
          (HMM.calculate_gammas (HMM.forward pi A B obs) betaCols).dropLast)).getD
        i [] := by
      rw [List.getD_eq_getElem _ _ hiL, hre]
    rw [hrd, HMM.zipWith_getD _ z _ i (by omega) (by rw [HMM.rowSums_length]; omega)
        [] 0 [],
      HMM.sum_map_div _ (fun x => x) _]
    simp only [List.map_id']
    have hsg : (HMM.rowSums 2
        (HMM.calculate_gammas (HMM.forward pi A B obs) betaCols).dropLast).getD i 0 =
        ∑ t ∈ Finset.range (obs.length - 1),
          HMM.eltC (HMM.calculate_gammas (HMM.forward pi A B obs) betaCols) i t := by
      rw [HMM.rowSums_getD 2 _ i hiz, List.length_dropLast, hglen]
      refine Finset.sum_congr rfl fun t ht => ?_
      rw [Finset.mem_range] at ht
      rw [HMM.eltC, HMM.eltC, HMM.getD_dropLast _ t
        (by rw [List.length_dropLast, hglen]; omega)]
    rw [hsg, hzsum i hiz, div_self (hdenA i hiz)]
  · intro r hr
    have hone : obs ≠ [] := hcond.2
    have hnel := HMM.sorted_map_ne_nil obs
      (fun k => (List.range obs.length).filter (fun t => obs.getD t 0 = k)) hone
    have hncl : HMM.ncols (((List.insertionSort (fun a b => a ≤ b) obs.dedup).map
        (fun k => (List.range obs.length).filter (fun t => obs.getD t 0 = k))).map
        (fun idx => HMM.expected_output_occurrence idx
          (HMM.calculate_gammas (HMM.forward pi A B obs) betaCols)
          (HMM.rowSums 2
            (HMM.calculate_gammas (HMM.forward pi A B obs) betaCols)))) = 2 :=
      HMM.ncols_eoo_map 2 _ _ hnel
    rw [HMM.transposeL] at hr
    obtain ⟨i, hiR, hre⟩ := List.mem_map.mp hr
    rw [List.mem_range, hncl] at hiR
    subst hre
    rw [HMM.sum_map_getD _ (fun row => row.getD i 0) ([] : List ℚ),
      List.length_map, List.length_map]
    have hstep : ∀ c < (List.insertionSort (fun a b => a ≤ b) obs.dedup).length,
        ((((List.insertionSort (fun a b => a ≤ b) obs.dedup).map
          (fun k => (List.range obs.length).filter (fun t => obs.getD t 0 = k))).map
          (fun idx => HMM.expected_output_occurrence idx
            (HMM.calculate_gammas (HMM.forward pi A B obs) betaCols)
            (HMM.rowSums 2
              (HMM.calculate_gammas (HMM.forward pi A B obs) betaCols)))).getD c
          []).getD i 0 =
        (fun k =>
          (∑ t ∈ (Finset.range obs.length).filter (fun t => obs.getD t 0 = k),
            HMM.eltC (HMM.calculate_gammas (HMM.forward pi A B obs) betaCols) i t) /
          (HMM.rowSums 2
            (HMM.calculate_gammas (HMM.forward pi A B obs) betaCols)).getD i 0)
          ((List.insertionSort (fun a b => a ≤ b) obs.dedup).getD c 0) := by
      intro c hc
      rw [HMM.getD_map_of_lt _ _ c (by rw [List.length_map]; exact hc) [],
        HMM.getD_map_of_lt _ _ c hc 0,
        HMM.eoo_getD _ _ _ i (by rw [HMM.rowSums_length]; omega),
        HMM.sum_filter_range obs.length
          (fun t => obs.getD t 0 =
            (List.insertionSort (fun a b => a ≤ b) obs.dedup).getD c 0)
          (fun t => HMM.eltC
            (HMM.calculate_gammas (HMM.forward pi A B obs) betaCols) i t)]
    rw [Finset.sum_congr rfl (fun c hc => hstep c (Finset.mem_range.mp hc)),
      ← HMM.sum_map_getD (List.insertionSort (fun a b => a ≤ b) obs.dedup)
        (fun k =>
          (∑ t ∈ (Finset.range obs.length).filter (fun t => obs.getD t 0 = k),
            HMM.eltC (HMM.calculate_gammas (HMM.forward pi A B obs) betaCols) i t) /
          (HMM.rowSums 2
            (HMM.calculate_gammas (HMM.forward pi A B obs) betaCols)).getD i 0) 0,
      HMM.sum_map_div _ (fun k =>
        ∑ t ∈ (Finset.range obs.length).filter (fun t => obs.getD t 0 = k),
          HMM.eltC (HMM.calculate_gammas (HMM.forward pi A B obs) betaCols) i t) _,
      HMM.sum_over_syms obs
        (fun t => HMM.eltC
          (HMM.calculate_gammas (HMM.forward pi A B obs) betaCols) i t),
      HMM.rowSums_getD 2 _ i hiR, hglen, div_self (hdenB i hiR)]

/-- C5 witness: one full E-step plus M-step on the notebook's worked example
yields `new_pi = [36/47, 11/47]`, `new_A = [[543/865, 322/865],
[341/1090, 749/1090]]`, `new_B = [[720/2147, 560/2147, 867/2147],
[220/1613, 380/1613, 1013/1613]]`, all exactly row-stochastic. -/
theorem reestimated_row_stochastic_C5_witness :
    ([36/47, 11/47] : List ℚ).sum = 1 ∧
    (∀ r ∈ ([[543/865, 322/865], [341/1090, 749/1090]] : List (List ℚ)),
      r.sum = 1) ∧
    (∀ r ∈ ([[720/2147, 560/2147, 867/2147], [220/1613, 380/1613, 1013/1613]] :
      List (List ℚ)), r.sum = 1) :=
  reestimated_row_stochastic_C5 3 Demo.piDemo Demo.A Demo.emission_matrix
    Demo.obs_sequence
    [[81/2500, 297/10000], [9/100, 9/100], [3/10, 3/10], [1, 1]]
    [36/47, 11/47]
    [[543/865, 322/865], [341/1090, 749/1090]]
    [[720/2147, 560/2147, 867/2147], [220/1613, 380/1613, 1013/1613]]
    (by decide) (by decide) (by decide) (by decide) (by decide) (by decide)
    (by decide)
    (by norm_num [Demo.piDemo])
    (by norm_num [Demo.A, List.forall_mem_cons])
    (by norm_num [Demo.emission_matrix, List.forall_mem_cons])
    (by
      rw [HMM.backward,
        if_pos (by decide : Demo.A.length = 2 ∧ Demo.obs_sequence ≠ [])]
      norm_num [HMM.backwardRec, HMM.matVec, HMM.rowBroadcastMul,
        HMM.hadamard, HMM.dot, HMM.col, Demo.A, Demo.emission_matrix,
        Demo.obs_sequence])
    (by
      intro t ht
      have ht4 : t < 4 := by simpa [Demo.obs_sequence] using ht
      interval_cases t <;>
        norm_num [HMM.hadamard, HMM.forward, HMM.forwardFrom, HMM.forwardStep,
          HMM.vecMat, HMM.dot, HMM.col, HMM.ncols, Demo.A, Demo.emission_matrix,
          Demo.piDemo, Demo.obs_sequence, List.range_succ])
    (by
      intro i hi
      interval_cases i <;>
        norm_num [Finset.sum_range_succ, HMM.eltC, HMM.calculate_gammas,
          HMM.hadamard, HMM.forward, HMM.forwardFrom, HMM.forwardStep,
          HMM.vecMat, HMM.dot, HMM.col, HMM.ncols, Demo.A, Demo.emission_matrix,
          Demo.piDemo, Demo.obs_sequence, List.range_succ])
    (by
      intro i hi
      interval_cases i <;>
        norm_num [Finset.sum_range_succ, HMM.eltC, HMM.calculate_gammas,
          HMM.hadamard, HMM.forward, HMM.forwardFrom, HMM.forwardStep,
          HMM.vecMat, HMM.dot, HMM.col, HMM.ncols, Demo.A, Demo.emission_matrix,
          Demo.piDemo, Demo.obs_sequence, List.range_succ])
    (by norm_num [HMM.re_estimate_parameters, HMM.calculate_gammas,
      HMM.calculate_zetas, HMM.zipWith3, HMM.zetaStep, HMM.scaleRows,
      HMM.matDivScalar, HMM.totalSum, HMM.matAdd, HMM.hadamard, HMM.col,
      HMM.forward, HMM.forwardFrom, HMM.forwardStep, HMM.vecMat, HMM.dot,
      HMM.ncols, HMM.rowSums, HMM.expected_output_occurrence, HMM.transposeL,
      List.insertionSort, List.orderedInsert, List.dedup, List.count_cons,
      List.range_succ, Demo.A, Demo.emission_matrix, Demo.piDemo,
      Demo.obs_sequence])

/-- C6: on the worked example (`π = [0.8, 0.2]`, `A = [[0.6,0.4],[0.3,0.7]]`,
`B = [[0.3,0.4,0.3],[0.4,0.3,0.3]]`, `obs = [0,1,2,2]`, normalization off)
one E-step plus M-step pass produces, to 4 decimal places, exactly the
notebook's printed `α`, `β`, `γ`, summed `ζ`, and re-estimated
`(new_π, new_A, new_B)` tables. -/
theorem worked_example_C6 :
    (HMM.transposeL (HMM.forward Demo.piDemo Demo.A Demo.emission_matrix
        Demo.obs_sequence)).map (fun r => r.map HMM.roundTo4) =
      [[0.2400, 0.0672, 0.0162, 0.0045], [0.0800, 0.0456, 0.0176, 0.0056]] ∧
    HMM.backward Demo.A Demo.emission_matrix Demo.obs_sequence =
      some [[81/2500, 297/10000], [9/100, 9/100], [3/10, 3/10], [1, 1]] ∧
    (HMM.transposeL [[81/2500, 297/10000], [9/100, 9/100], [3/10, 3/10],
        [1, 1]]).map (fun r => r.map HMM.roundTo4) =
      [[0.0324, 0.0900, 0.3000, 1.0000], [0.0297, 0.0900, 0.3000, 1.0000]] ∧
    (HMM.transposeL (HMM.calculate_gammas
        (HMM.forward Demo.piDemo Demo.A Demo.emission_matrix Demo.obs_sequence)
        [[81/2500, 297/10000], [9/100, 9/100], [3/10, 3/10], [1, 1]])).map
        (fun r => r.map HMM.roundTo4) =
      [[0.7660, 0.5957, 0.4787, 0.4436], [0.2340, 0.4043, 0.5213, 0.5564]] ∧
    (HMM.calculate_zetas Demo.A Demo.emission_matrix
        ((HMM.forward Demo.piDemo Demo.A Demo.emission_matrix
          Demo.obs_sequence).dropLast)
        [[81/2500, 297/10000], [9/100, 9/100], [3/10, 3/10], [1, 1]]
        Demo.obs_sequence).map (fun z => z.map (fun r => r.map HMM.roundTo4)) =
      some [[1.1553, 0.6851], [0.3628, 0.7968]] ∧
    (HMM.re_estimate_parameters Demo.A Demo.emission_matrix
        (HMM.forward Demo.piDemo Demo.A Demo.emission_matrix Demo.obs_sequence)
        [[81/2500, 297/10000], [9/100, 9/100], [3/10, 3/10], [1, 1]]
        Demo.obs_sequence).map (fun out =>
          (out.1.map HMM.roundTo4, (out.2.1).map (fun r => r.map HMM.roundTo4),
            (out.2.2).map (fun r => r.map HMM.roundTo4))) =
      some ([0.7660, 0.2340], [[0.6277, 0.3723], [0.3128, 0.6872]],
        [[0.3354, 0.2608, 0.4038], [0.1364, 0.2356, 0.6280]]) := by
  refine ⟨?_, ?_, ?_, ?_, ?_, ?_⟩
  · norm_num [HMM.roundTo4, HMM.transposeL, HMM.ncols, HMM.forward, HMM.forwardFrom,
      HMM.forwardStep, HMM.vecMat, HMM.dot, HMM.hadamard, HMM.col, Demo.piDemo,
      Demo.A, Demo.emission_matrix, Demo.obs_sequence, List.range_succ]
  · rw [HMM.backward,
      if_pos (by decide : Demo.A.length = 2 ∧ Demo.obs_sequence ≠ [])]
    norm_num [HMM.backwardRec, HMM.matVec, HMM.rowBroadcastMul, HMM.hadamard,
      HMM.dot, HMM.col, Demo.A, Demo.emission_matrix, Demo.obs_sequence]
  · norm_num [HMM.roundTo4, HMM.transposeL, HMM.ncols, List.range_succ]
  · norm_num [HMM.roundTo4, HMM.transposeL, HMM.ncols, HMM.calculate_gammas,
      HMM.forward, HMM.forwardFrom, HMM.forwardStep, HMM.vecMat, HMM.dot,
      HMM.hadamard, HMM.col, Demo.piDemo, Demo.A, Demo.emission_matrix,
      Demo.obs_sequence, List.range_succ]
  · norm_num [HMM.roundTo4, HMM.calculate_zetas, HMM.zipWith3, HMM.zetaStep,
      HMM.scaleRows, HMM.matDivScalar, HMM.totalSum, HMM.matAdd, HMM.hadamard,
      HMM.col, HMM.forward, HMM.forwardFrom, HMM.forwardStep, HMM.vecMat, HMM.dot,
      HMM.ncols, Demo.A, Demo.emission_matrix, Demo.piDemo, Demo.obs_sequence,
      List.range_succ]
  · norm_num [HMM.roundTo4, HMM.re_estimate_parameters, HMM.calculate_gammas,
      HMM.calculate_zetas, HMM.zipWith3, HMM.zetaStep, HMM.scaleRows,
      HMM.matDivScalar, HMM.totalSum, HMM.matAdd, HMM.hadamard, HMM.col,
      HMM.forward, HMM.forwardFrom, HMM.forwardStep, HMM.vecMat, HMM.dot,
      HMM.ncols, HMM.rowSums, HMM.expected_output_occurrence, HMM.transposeL,
      List.insertionSort, List.orderedInsert, List.dedup, List.count_cons,
      List.range_succ, Demo.A, Demo.emission_matrix, Demo.piDemo,
      Demo.obs_sequence]
